import Mathlib

/-!
Shallow embedding of the label/pair utilities of `src/utils.py` and proofs of
its specified properties.

The embedded functions are `create_class_pairs`, `random_targets`,
`get_label_conf`, `get_labels_np_array` and `get_labels_tf_tensor`.

Modelling conventions:
* numpy arrays become Lean `List`s; samples are an opaque type `α`, labels are
  `Int` (Python integers), scores are an opaque type `β`.
* floating point confidences are idealised as rationals `ℚ`.
* the process-wide pseudorandom generator (`random.randrange`,
  `np.random.choice`) is modelled by an arbitrary stream `g : Nat → Nat` of
  draws together with a counter: the `k`-th consultation of the generator
  reads `g k`.  Any concrete run of the Python code corresponds to some `g`,
  and every `g` corresponds to a realisable run.
* Python exceptions become an `Except PyErr` result (`ValueError` from
  `random.randrange` on an empty range and from numpy reductions over
  zero-size arrays, `IndexError` from out-of-range indexing).  The spec's
  `InvalidArgument` is included as a constructor so that claims about it can
  be stated; the code itself never produces it.
-/

namespace AdvUtils

/-- Python exception kinds relevant to this module.  `invalidArgument` is the
error kind named by the specification; the others are the exceptions the
Python runtime can actually raise here. -/
inductive PyErr : Type
  | valueError
  | indexError
  | invalidArgument
deriving DecidableEq, Repr

/-- Python's `random.randrange(lo, hi)` driven by the draw stream `g` at counter `k`:
returns a value in `[lo, hi)` together with the advanced counter, and raises
`ValueError` when the range is empty (`hi <= lo`). -/
def randrange (g : Nat → Nat) (k : Nat) (lo hi : Int) : Except PyErr (Int × Nat) :=
  if lo < hi then .ok (lo + (g k : Int) % (hi - lo), k + 1) else .error .valueError

/-- Python indexing `l[i]` for a non-negative index: `IndexError` when out of
range. -/
def pyGet {γ : Type} (l : List γ) (i : Nat) : Except PyErr γ :=
  match l[i]? with
  | some v => .ok v
  | none => .error .indexError

/-- Numpy's `np.where(y == i)[0]`: the positions of `y` holding label `i`, in
increasing order. -/
def npWhereEq (y : List Int) (i : Int) : List Nat :=
  (y.enum.filter (fun p => decide (p.2 = i))).map Prod.fst

/-- The list `classes_idx = [np.where(y == i)[0] for i in range(classes)]`
(src/utils.py line 52). -/
def classesIdx (y : List Int) (classes : Int) : List (List Nat) :=
  (List.range classes.toNat).map (fun i => npWhereEq y (Int.ofNat i))

/-- The local state of `create_class_pairs` during its loops: the random
counter and the `pairs` and `scores` lists built so far. -/
structure PGState (α β : Type) : Type where
  k : Nat
  pairs : List (α × α)
  scores : List β
deriving DecidableEq, Repr

/-- The second half of the inner-loop body of `create_class_pairs`
(src/utils.py lines 65-72), entered with the positive pair for `z1` already
appended (state `st1`): draw the partner class
`dn = (d + randrange(1, classes)) % classes` and, when it is non-empty,
append a negative pair `(x[z1], x[classes_idx[dn][j]])` with score `neg`.
The returned state reflects every append performed before a possible
exception. -/
def memberStepNeg {α β : Type} (x : List α) (cidx : List (List Nat)) (classes : Int)
    (neg : β) (g : Nat → Nat) (d : Nat) (z1 : Nat) (st1 : PGState α β) :
    PGState α β × Option PyErr :=
  match randrange g st1.k 1 classes with
  | .error e => (st1, some e)
  | .ok (r, k2) =>
    match pyGet cidx (((d : Int) + r) % classes).toNat with
    | .error e => ({ st1 with k := k2 }, some e)
    | .ok idx_dn =>
      if 0 < idx_dn.length then
        match randrange g k2 0 (idx_dn.length : Int) with
        | .error e => ({ st1 with k := k2 }, some e)
        | .ok (j2, k3) =>
          match pyGet idx_dn j2.toNat with
          | .error e => ({ st1 with k := k3 }, some e)
          | .ok z2n =>
            match pyGet x z1 with
            | .error e => ({ st1 with k := k3 }, some e)
            | .ok w1 =>
              match pyGet x z2n with
              | .error e => ({ st1 with k := k3 }, some e)
              | .ok w2 => (⟨k3, st1.pairs ++ [(w1, w2)], st1.scores ++ [neg]⟩, none)
      else ({ st1 with k := k2 }, none)

/-- The body of the inner loop of `create_class_pairs` (src/utils.py lines
58-72) for the member `z1 = classes_idx[d][i]` of class `d`: append the
positive pair `(x[z1], x[classes_idx[d][j]])` with score `pos`, then run
`memberStepNeg` for the negative pair. -/
def memberStep {α β : Type} (x : List α) (cidx : List (List Nat)) (classes : Int)
    (pos neg : β) (g : Nat → Nat) (d : Nat) (idx_d : List Nat) (z1 : Nat)
    (st : PGState α β) : PGState α β × Option PyErr :=
  match randrange g st.k 0 (idx_d.length : Int) with
  | .error e => (st, some e)
  | .ok (j, k1) =>
    match pyGet idx_d j.toNat with
    | .error e => ({ st with k := k1 }, some e)
    | .ok z2 =>
      match pyGet x z1 with
      | .error e => ({ st with k := k1 }, some e)
      | .ok v1 =>
        match pyGet x z2 with
        | .error e => ({ st with k := k1 }, some e)
        | .ok v2 =>
          memberStepNeg x cidx classes neg g d z1
            ⟨k1, st.pairs ++ [(v1, v2)], st.scores ++ [pos]⟩

/-- The inner loop `for i in range(nb)` of `create_class_pairs` (src/utils.py
lines 56-72), iterating over the members of `idx_d = classes_idx[d]` in
order.  An exception aborts the loop, keeping the state reached so far. -/
def memberLoop {α β : Type} (x : List α) (cidx : List (List Nat)) (classes : Int)
    (pos neg : β) (g : Nat → Nat) (d : Nat) (idx_d : List Nat) :
    List Nat → PGState α β → PGState α β × Option PyErr
  | [], st => (st, none)
  | z1 :: rest, st =>
    match memberStep x cidx classes pos neg g d idx_d z1 st with
    | (st1, none) => memberLoop x cidx classes pos neg g d idx_d rest st1
    | (st1, some e) => (st1, some e)

/-- The outer loop `for d in range(classes)` of `create_class_pairs`
(src/utils.py lines 54-72), iterating over `classes_idx` with `d` the current
class number. -/
def classLoop {α β : Type} (x : List α) (cidx : List (List Nat)) (classes : Int)
    (pos neg : β) (g : Nat → Nat) :
    List (List Nat) → Nat → PGState α β → PGState α β × Option PyErr
  | [], _, st => (st, none)
  | idx_d :: restC, d, st =>
    match memberLoop x cidx classes pos neg g d idx_d idx_d st with
    | (st1, none) => classLoop x cidx classes pos neg g restC (d + 1) st1
    | (st1, some e) => (st1, some e)

/-- The complete run of `create_class_pairs(x, y, classes, pos, neg)`
(src/utils.py lines 37-74), returning the final local state together with the
exception, if one was raised. -/
def createClassPairsRun {α β : Type} (x : List α) (y : List Int) (classes : Int)
    (pos neg : β) (g : Nat → Nat) : PGState α β × Option PyErr :=
  classLoop x (classesIdx y classes) classes pos neg g (classesIdx y classes) 0 ⟨0, [], []⟩

/-- The call `create_class_pairs(x, y, classes, pos, neg)` as observed by the caller:
either the final `(pairs, scores)` or the exception that was raised (in which
case the partially built lists are discarded with the stack frame). -/
def create_class_pairs {α β : Type} (x : List α) (y : List Int) (classes : Int)
    (pos neg : β) (g : Nat → Nat) : Except PyErr (List (α × α) × List β) :=
  match createClassPairsRun x y classes pos neg g with
  | (st, none) => .ok (st.pairs, st.scores)
  | (_, some e) => .error e

/-- Numpy's `np.random.choice(l)` driven by the draw stream `g` at counter `k`: a
uniformly chosen element of `l`, raising `ValueError` when `l` is empty. -/
def np_random_choice (g : Nat → Nat) (k : Nat) (l : List Int) : Except PyErr (Int × Nat) :=
  if l.length = 0 then .error .valueError else .ok (l.getD (g k % l.length) 0, k + 1)

/-- The list `other_classes` built by `list(range(nb_classes))` followed by `other_classes.remove(class_ind)`
(src/utils.py lines 30-31): the class range with `class_ind` removed, as the
integers numpy draws from. -/
def otherClasses (nb ci : Nat) : List Int :=
  ((List.range nb).filter (fun j => decide (j ≠ ci))).map Int.ofNat

/-- The loop `for class_ind in range(nb_classes)` of `random_targets`
(src/utils.py lines 29-33): for each class, remove it from the class range,
draw one random other class, and overwrite `result` at every position whose
ground-truth label equals `class_ind`. -/
def rtLoop (g : Nat → Nat) (nb : Nat) (gt : List Int) :
    List Nat → Nat → List Int → Except PyErr (List Int)
  | [], _, res => .ok res
  | ci :: rest, k, res =>
    match np_random_choice g k (otherClasses nb ci) with
    | .error e => .error e
    | .ok (choice, k1) =>
      rtLoop g nb gt rest k1 (List.zipWith (fun r l => if l = (ci : Int) then choice else r) res gt)

/-- Keras' `np_utils.to_categorical` on one entry: the one-hot row of
length `nb` marking class `r` (class ids out of `[0, nb)` are unreachable in
the runs we consider). -/
def to_categorical (r : Int) (nb : Nat) : List ℚ :=
  (List.range nb).map (fun j => if (j : Int) = r then 1 else 0)

/-- The function `random_targets(gt, nb_classes)` (src/utils.py lines 16-35) on the 1-D
labels path (a 2-D one-hot input is first reduced by `np.argmax`, after which
the same code runs): start from an all-zero `result`, loop over the classes
overwriting the positions of each class with one shared random other class,
and return the one-hot encoding of `result`. -/
def random_targets (gt : List Int) (nb_classes : Nat) (g : Nat → Nat) :
    Except PyErr (List (List ℚ)) :=
  match rtLoop g nb_classes gt (List.range nb_classes) 0 (gt.map fun _ => 0) with
  | .error e => .error e
  | .ok result => .ok (result.map (fun r => to_categorical r nb_classes))

/-- Numpy's `np.amax` over one row: the greatest entry; numpy raises `ValueError` on
a zero-size reduction. -/
def npAmax (row : List ℚ) : Except PyErr ℚ :=
  match row with
  | [] => .error .valueError
  | a :: rest => .ok (rest.foldl max a)

/-- Tail of `np.argmax` over one row: scanning the remaining entries with the
current maximum `m`, its (first) position `best`, and the position `i` of the
next entry; a later entry replaces the maximum only when strictly greater, so
the first position attaining the maximum wins. -/
def argmaxGo : List ℚ → ℚ → Nat → Nat → Nat
  | [], _, best, _ => best
  | v :: rest, m, best, i => if m < v then argmaxGo rest v i (i + 1) else argmaxGo rest m best (i + 1)

/-- Numpy's `np.argmax` over one row: position of the first maximal entry; numpy
raises `ValueError` on an empty sequence. -/
def npArgmax (row : List ℚ) : Except PyErr Nat :=
  match row with
  | [] => .error .valueError
  | a :: rest => .ok (argmaxGo rest a 0 1)

/-- The function `get_label_conf(y_vec)` (src/utils.py lines 77-86):
`np.amax(y_vec, axis=1)` and `np.argmax(y_vec, axis=1)`, the per-row greatest
confidence and the per-row position of the first maximal entry. -/
def get_label_conf (y_vec : List (List ℚ)) : Except PyErr (List ℚ × List Nat) :=
  match y_vec.mapM npAmax with
  | .error e => .error e
  | .ok confs =>
    match y_vec.mapM npArgmax with
    | .error e => .error e
    | .ok labels => .ok (confs, labels)

/-- The function `get_labels_np_array(preds)` (src/utils.py lines 104-115):
`preds_max = np.amax(preds, axis=1, keepdims=True)` followed by
`(preds == preds_max).astype(float)` — an indicator of the maximal entries
per row, with no normalisation. -/
def get_labels_np_array (preds : List (List ℚ)) : Except PyErr (List (List ℚ)) :=
  match preds.mapM npAmax with
  | .error e => .error e
  | .ok maxes =>
    .ok (List.zipWith (fun row m => row.map (fun v => if v = m then (1 : ℚ) else 0)) preds maxes)

/-- The update `y /= tf.reduce_sum(y, 1, keep_dims=True)` on one row: divide each entry
by the row sum. -/
def tfNormalize (y : List ℚ) : List ℚ :=
  y.map (fun v => v / y.sum)

/-- One row of `get_labels_tf_tensor`: the indicator of the entries equal to
the row maximum (`tf.to_float(tf.equal(preds, preds_max))`), normalised by
its row sum. -/
def tfRow (row : List ℚ) : List ℚ :=
  tfNormalize (row.map (fun v => if v = row.foldl max (row.headD 0) then (1 : ℚ) else 0))

/-- The function `get_labels_tf_tensor(preds)` (src/utils.py lines 89-101), idealised over
the rationals and defined row-wise.  On an empty row tensorflow would produce
non-finite values; empty rows are outside the modelled domain and get an
empty output row here. -/
def get_labels_tf_tensor (preds : List (List ℚ)) : List (List ℚ) :=
  preds.map tfRow

/-! ### Basic facts about the random and indexing primitives -/

theorem randrange_ok {g : Nat → Nat} {k : Nat} {lo hi v : Int} {k' : Nat}
    (h : randrange g k lo hi = .ok (v, k')) : lo ≤ v ∧ v < hi ∧ k' = k + 1 := by
  unfold randrange at h
  split at h
  · rename_i hlt
    simp only [Except.ok.injEq, Prod.mk.injEq] at h
    obtain ⟨h1, h2⟩ := h
    have h0 : (0 : Int) ≤ (g k : Int) % (hi - lo) := Int.emod_nonneg _ (by omega)
    have hl : (g k : Int) % (hi - lo) < hi - lo := Int.emod_lt_of_pos _ (by omega)
    omega
  · exact absurd h (by simp)

theorem randrange_err {g : Nat → Nat} {k : Nat} {lo hi : Int} {e : PyErr}
    (h : randrange g k lo hi = .error e) : e = .valueError ∧ hi ≤ lo := by
  unfold randrange at h
  split at h
  · exact absurd h (by simp)
  · rename_i hge
    simp only [Except.error.injEq] at h
    exact ⟨h.symm, by omega⟩

theorem randrange_eq_ok {g : Nat → Nat} {k : Nat} {lo hi : Int} (h : lo < hi) :
    randrange g k lo hi = .ok (lo + (g k : Int) % (hi - lo), k + 1) := by
  unfold randrange
  simp [h]

theorem randrange_eq_err {g : Nat → Nat} {k : Nat} {lo hi : Int} (h : hi ≤ lo) :
    randrange g k lo hi = .error .valueError := by
  unfold randrange
  simp [h, not_lt.mpr h]

theorem randrange_eq_ok0 {g : Nat → Nat} {k : Nat} {hi : Int} (h : 0 < hi) :
    randrange g k 0 hi = .ok ((g k : Int) % hi, k + 1) := by
  unfold randrange
  rw [if_pos h]
  norm_num

theorem pyGet_ok {γ : Type} {l : List γ} {i : Nat} {v : γ}
    (h : pyGet l i = .ok v) : l[i]? = some v := by
  unfold pyGet at h
  split at h
  · rename_i w hw
    injection h with h
    exact h ▸ hw
  · exact absurd h (by simp)

theorem pyGet_err {γ : Type} {l : List γ} {i : Nat} {e : PyErr}
    (h : pyGet l i = .error e) : e = .indexError := by
  unfold pyGet at h
  split at h
  · exact absurd h (by simp)
  · injection h with h
    exact h.symm

theorem pyGet_eq_ok {γ : Type} {l : List γ} {i : Nat} {v : γ}
    (h : l[i]? = some v) : pyGet l i = .ok v := by
  unfold pyGet
  simp [h]

theorem pyGet_ok_lt {γ : Type} {l : List γ} {i : Nat} {v : γ}
    (h : pyGet l i = .ok v) : i < l.length ∧ v ∈ l := by
  have h1 := pyGet_ok h
  have hlt : i < l.length := by
    by_contra hge
    rw [List.getElem?_eq_none (Nat.le_of_not_lt hge)] at h1
    exact Option.noConfusion h1
  refine ⟨hlt, ?_⟩
  rw [List.getElem?_eq_getElem hlt] at h1
  injection h1 with h1
  exact h1 ▸ List.getElem_mem hlt

/-! ### Facts about `npWhereEq` and `classesIdx` -/

theorem mem_npWhereEq {y : List Int} {c : Int} {z : Nat}
    (h : z ∈ npWhereEq y c) : y[z]? = some c := by
  unfold npWhereEq at h
  obtain ⟨⟨i, a⟩, hmem, hfst⟩ := List.mem_map.mp h
  have hf := List.mem_filter.mp hmem
  have ha : a = c := by simpa using hf.2
  subst ha
  obtain ⟨-, hlt, hv⟩ := List.mem_enumFrom (by simpa [List.enum] using hf.1)
  have hlt2 : i < y.length := by simpa using hlt
  have hv2 : a = y[i] := by simpa using hv
  rw [← hfst]
  show y[i]? = some a
  rw [List.getElem?_eq_getElem hlt2, hv2]

theorem mem_npWhereEq_lt {y : List Int} {c : Int} {z : Nat}
    (h : z ∈ npWhereEq y c) : z < y.length := by
  have h1 := mem_npWhereEq h
  by_contra hge
  rw [List.getElem?_eq_none (Nat.le_of_not_lt hge)] at h1
  exact Option.noConfusion h1

theorem length_npWhereEq (y : List Int) (c : Int) :
    (npWhereEq y c).length = y.countP (fun l => decide (l = c)) := by
  unfold npWhereEq
  rw [List.length_map, ← List.countP_eq_length_filter]
  conv_rhs => rw [← List.enum_map_snd y, List.countP_map]
  rfl

theorem npWhereEq_eq_nil {y : List Int} {c : Int} (h : c ∉ y) :
    npWhereEq y c = [] := by
  have : (npWhereEq y c).length = 0 := by
    rw [length_npWhereEq, List.countP_eq_length_filter]
    simp only [List.length_eq_zero, List.filter_eq_nil_iff]
    intro a ha
    simp only [decide_eq_true_eq]
    exact fun hc => h (hc ▸ ha)
  exact List.length_eq_zero.mp this

theorem classesIdx_length (y : List Int) (classes : Int) :
    (classesIdx y classes).length = classes.toNat := by
  unfold classesIdx
  rw [List.length_map, List.length_range]

theorem classesIdx_getElem? {y : List Int} {classes : Int} {d : Nat}
    (h : d < classes.toNat) :
    (classesIdx y classes)[d]? = some (npWhereEq y (d : Int)) := by
  unfold classesIdx
  rw [List.getElem?_map, List.getElem?_range h]
  rfl

/-! ### C1: pairs and scores stay aligned -/

theorem memberStepNeg_preserves_len {α β : Type} {x : List α} {cidx : List (List Nat)}
    {classes : Int} {neg : β} {g : Nat → Nat} {d : Nat}
    {z1 : Nat} {st1 st' : PGState α β} {oe : Option PyErr}
    (h : memberStepNeg x cidx classes neg g d z1 st1 = (st', oe))
    (hlen : st1.pairs.length = st1.scores.length) :
    st'.pairs.length = st'.scores.length := by
  unfold memberStepNeg at h
  repeat' split at h
  all_goals (injection h with h1 h2; subst h1; simp [hlen])

theorem memberStep_preserves_len {α β : Type} {x : List α} {cidx : List (List Nat)}
    {classes : Int} {pos neg : β} {g : Nat → Nat} {d : Nat} {idx_d : List Nat}
    {z1 : Nat} {st st' : PGState α β} {oe : Option PyErr}
    (h : memberStep x cidx classes pos neg g d idx_d z1 st = (st', oe))
    (hlen : st.pairs.length = st.scores.length) :
    st'.pairs.length = st'.scores.length := by
  unfold memberStep at h
  repeat' split at h
  all_goals
    first
    | (injection h with h1 h2; subst h1; simp [hlen])
    | exact memberStepNeg_preserves_len h (by simp [hlen])

theorem memberLoop_preserves_len {α β : Type} {x : List α} {cidx : List (List Nat)}
    {classes : Int} {pos neg : β} {g : Nat → Nat} {d : Nat} {idx_d : List Nat}
    {m : List Nat} {st st' : PGState α β} {oe : Option PyErr}
    (h : memberLoop x cidx classes pos neg g d idx_d m st = (st', oe))
    (hlen : st.pairs.length = st.scores.length) :
    st'.pairs.length = st'.scores.length := by
  induction m generalizing st with
  | nil =>
    unfold memberLoop at h
    injection h with h1 h2
    subst h1
    exact hlen
  | cons z1 rest ih =>
    unfold memberLoop at h
    split at h
    · rename_i st1 hstep
      exact ih h (memberStep_preserves_len hstep hlen)
    · rename_i st1 e hstep
      injection h with h1 h2
      subst h1
      exact memberStep_preserves_len hstep hlen

theorem classLoop_preserves_len {α β : Type} {x : List α} {cidx : List (List Nat)}
    {classes : Int} {pos neg : β} {g : Nat → Nat} {restC : List (List Nat)}
    {d : Nat} {st st' : PGState α β} {oe : Option PyErr}
    (h : classLoop x cidx classes pos neg g restC d st = (st', oe))
    (hlen : st.pairs.length = st.scores.length) :
    st'.pairs.length = st'.scores.length := by
  induction restC generalizing st d with
  | nil =>
    unfold classLoop at h
    injection h with h1 h2
    subst h1
    exact hlen
  | cons idx_d rest ih =>
    unfold classLoop at h
    split at h
    · rename_i st1 hml
      exact ih h (memberLoop_preserves_len hml hlen)
    · rename_i st1 e hml
      injection h with h1 h2
      subst h1
      exact memberLoop_preserves_len hml hlen

/-- C1: whenever `create_class_pairs` returns normally, the returned pair
list and score list have the same length, so position `i` of the score list
is the score of position `i` of the pair list (the two lists are only ever
extended together, a positive pair with `pos` and a negative pair with
`neg`). -/
theorem create_class_pairs_len_eq {α β : Type} (x : List α) (y : List Int)
    (classes : Int) (pos neg : β) (g : Nat → Nat) (ps : List (α × α)) (ss : List β)
    (h : create_class_pairs x y classes pos neg g = .ok (ps, ss)) :
    ps.length = ss.length := by
  unfold create_class_pairs at h
  split at h
  · rename_i st hrun
    injection h with h
    injection h with h1 h2
    subst h1 h2
    exact classLoop_preserves_len hrun rfl
  · exact absurd h (by simp)

/-- Witness for C1: a run on the dataset `x = [5, 6]`, `y = [0, 1]` with two
classes returns four pairs and four scores. -/
theorem create_class_pairs_len_eq_witness :
    ([((5 : Int), (5 : Int)), (5, 6), (6, 6), (6, 5)]).length = ([(1 : Int), 0, 1, 0]).length :=
  create_class_pairs_len_eq [5, 6] [0, 1] 2 1 0 (fun _ => 0)
    [(5, 5), (5, 6), (6, 6), (6, 5)] [1, 0, 1, 0] (by rfl)

/-! ### Error analysis: which exceptions the code can raise, and when -/

theorem pyGet_total {γ : Type} {l : List γ} {i : Nat} (h : i < l.length) :
    ∃ v, pyGet l i = .ok v ∧ v ∈ l :=
  ⟨l[i], by unfold pyGet; rw [List.getElem?_eq_getElem h], List.getElem_mem h⟩

theorem memberStepNeg_err_kind {α β : Type} {x : List α} {cidx : List (List Nat)}
    {classes : Int} {neg : β} {g : Nat → Nat} {d : Nat}
    {z1 : Nat} {st1 st' : PGState α β} {e : PyErr}
    (h : memberStepNeg x cidx classes neg g d z1 st1 = (st', some e)) :
    e = .valueError ∨ e = .indexError := by
  unfold memberStepNeg at h
  repeat' split at h
  all_goals
    first
    | (injection h with h1 h2; exact Option.noConfusion h2)
    | (rename_i heq; injection h with h1 h2; injection h2 with h2; subst h2;
       first
       | exact Or.inl (randrange_err heq).1
       | exact Or.inr (pyGet_err heq))

theorem memberStep_err_kind {α β : Type} {x : List α} {cidx : List (List Nat)}
    {classes : Int} {pos neg : β} {g : Nat → Nat} {d : Nat} {idx_d : List Nat}
    {z1 : Nat} {st st' : PGState α β} {e : PyErr}
    (h : memberStep x cidx classes pos neg g d idx_d z1 st = (st', some e)) :
    e = .valueError ∨ e = .indexError := by
  unfold memberStep at h
  repeat' split at h
  all_goals
    first
    | exact memberStepNeg_err_kind h
    | (rename_i heq; injection h with h1 h2; injection h2 with h2; subst h2;
       first
       | exact Or.inl (randrange_err heq).1
       | exact Or.inr (pyGet_err heq))

theorem memberLoop_err_kind {α β : Type} {x : List α} {cidx : List (List Nat)}
    {classes : Int} {pos neg : β} {g : Nat → Nat} {d : Nat} {idx_d : List Nat}
    {m : List Nat} {st st' : PGState α β} {e : PyErr}
    (h : memberLoop x cidx classes pos neg g d idx_d m st = (st', some e)) :
    e = .valueError ∨ e = .indexError := by
  induction m generalizing st with
  | nil =>
    unfold memberLoop at h
    injection h with h1 h2
    exact Option.noConfusion h2
  | cons z1 rest ih =>
    unfold memberLoop at h
    split at h
    · exact ih h
    · rename_i st1 e1 hstep
      injection h with h1 h2
      injection h2 with h2
      exact h2 ▸ memberStep_err_kind hstep

theorem classLoop_err_kind {α β : Type} {x : List α} {cidx : List (List Nat)}
    {classes : Int} {pos neg : β} {g : Nat → Nat} {restC : List (List Nat)}
    {d : Nat} {st st' : PGState α β} {e : PyErr}
    (h : classLoop x cidx classes pos neg g restC d st = (st', some e)) :
    e = .valueError ∨ e = .indexError := by
  induction restC generalizing st d with
  | nil =>
    unfold classLoop at h
    injection h with h1 h2
    exact Option.noConfusion h2
  | cons idx_d rest ih =>
    unfold classLoop at h
    split at h
    · exact ih h
    · rename_i st1 e1 hml
      injection h with h1 h2
      injection h2 with h2
      exact h2 ▸ memberLoop_err_kind hml

/-- The only exceptions `create_class_pairs` can raise are `ValueError` (from
`random.randrange` on an empty range) and `IndexError` (from indexing); it
has no validation code and never raises the spec's `InvalidArgument`. -/
theorem create_class_pairs_err_kind {α β : Type} {x : List α} {y : List Int}
    {classes : Int} {pos neg : β} {g : Nat → Nat} {e : PyErr}
    (h : create_class_pairs x y classes pos neg g = .error e) :
    e = .valueError ∨ e = .indexError := by
  unfold create_class_pairs at h
  split at h
  · exact absurd h (by simp)
  · rename_i st e1 hrun
    injection h with h
    unfold createClassPairsRun at hrun
    exact h ▸ classLoop_err_kind hrun

theorem classesIdx_nil {y : List Int} {classes : Int} (h : classes ≤ 0) :
    classesIdx y classes = [] := by
  unfold classesIdx
  rw [Int.toNat_of_nonpos h]
  rfl

/-- With `classes <= 0` both loops are empty and the function returns two
empty arrays without touching its arguments. -/
theorem create_class_pairs_nonpos_classes {α β : Type} (x : List α) (y : List Int)
    {classes : Int} (pos neg : β) (g : Nat → Nat) (h : classes ≤ 0) :
    create_class_pairs x y classes pos neg g = .ok ([], []) := by
  unfold create_class_pairs createClassPairsRun
  rw [classesIdx_nil h]
  rfl

theorem memberStepNeg_classes_le_one {α β : Type} {x : List α} {cidx : List (List Nat)}
    {classes : Int} {neg : β} {g : Nat → Nat} {d : Nat} {z1 : Nat}
    (st1 : PGState α β) (hc : classes ≤ 1) :
    memberStepNeg x cidx classes neg g d z1 st1 = (st1, some .valueError) := by
  unfold memberStepNeg
  rw [randrange_eq_err hc]

/-- With `classes <= 1`, processing any member appends its positive pair and
then dies in `random.randrange(1, classes)` with a `ValueError`. -/
theorem memberStep_classes_le_one {α β : Type} (x : List α) (cidx : List (List Nat))
    (classes : Int) (pos neg : β) (g : Nat → Nat) (d : Nat) (idx_d : List Nat)
    (z1 : Nat) (st : PGState α β) (hc : classes ≤ 1) (hz1 : z1 < x.length)
    (hall : ∀ z ∈ idx_d, z < x.length) (hne : idx_d ≠ []) :
    ∃ st', memberStep x cidx classes pos neg g d idx_d z1 st = (st', some .valueError)
      ∧ st'.pairs.length = st.pairs.length + 1 := by
  have hlen0 : 0 < idx_d.length := List.length_pos.mpr hne
  have hcast : (0 : Int) < (idx_d.length : Int) := by exact_mod_cast hlen0
  have hjb := Int.emod_nonneg (g st.k : Int) (b := (idx_d.length : Int)) (by omega)
  have hjl := Int.emod_lt_of_pos (g st.k : Int) (b := (idx_d.length : Int)) (by omega)
  have hjn : ((g st.k : Int) % (idx_d.length : Int)).toNat < idx_d.length := by omega
  obtain ⟨z2, hz2, hz2mem⟩ := pyGet_total hjn
  obtain ⟨v1, hv1, -⟩ := pyGet_total hz1
  obtain ⟨v2, hv2, -⟩ := pyGet_total (hall z2 hz2mem)
  unfold memberStep
  simp only [randrange_eq_ok0 hcast, hz2, hv1, hv2]
  rw [memberStepNeg_classes_le_one _ hc]
  exact ⟨_, rfl, by simp⟩

theorem memberLoop_classes_le_one {α β : Type} (x : List α) (cidx : List (List Nat))
    (classes : Int) (pos neg : β) (g : Nat → Nat) (d : Nat) (idx_d : List Nat)
    (z1 : Nat) (m : List Nat) (st : PGState α β) (hc : classes ≤ 1)
    (hall : ∀ z ∈ idx_d, z < x.length) (hz1 : z1 ∈ idx_d) :
    ∃ st', memberLoop x cidx classes pos neg g d idx_d (z1 :: m) st
        = (st', some .valueError)
      ∧ st'.pairs.length = st.pairs.length + 1 := by
  obtain ⟨st', hstep, hplen⟩ :=
    memberStep_classes_le_one x cidx classes pos neg g d idx_d z1 st hc
      (hall z1 hz1) hall (List.ne_nil_of_mem hz1)
  exact ⟨st', by unfold memberLoop; rw [hstep], hplen⟩

/-- C5 (amended): with `num_classes == 1` and all samples and labels aligned,
the call fails with `ValueError` as soon as some sample has label `0` (the
failure comes from `random.randrange(1, 1)` right after that sample's
positive pair was built), and returns two empty arrays when no sample has
label `0`.  It never raises `InvalidArgument`. -/
theorem create_class_pairs_classes_one {α β : Type} (x : List α) (y : List Int)
    (pos neg : β) (g : Nat → Nat) (hlen : x.length = y.length) :
    ((0 : Int) ∈ y → create_class_pairs x y 1 pos neg g = .error .valueError) ∧
    ((0 : Int) ∉ y → create_class_pairs x y 1 pos neg g = .ok ([], [])) := by
  have hcidx : classesIdx y 1 = [npWhereEq y 0] := by
    unfold classesIdx
    rfl
  constructor
  · intro hmem
    have hne : npWhereEq y 0 ≠ [] := by
      intro hnil
      have h0 : (npWhereEq y 0).length = 0 := by rw [hnil]; rfl
      rw [length_npWhereEq] at h0
      rw [List.countP_eq_zero] at h0
      exact absurd (by simp : decide ((0 : Int) = 0) = true) (h0 0 hmem)
    obtain ⟨z1, m, hzm⟩ := List.exists_cons_of_ne_nil hne
    have hall : ∀ z ∈ npWhereEq y 0, z < x.length := fun z hz =>
      hlen ▸ mem_npWhereEq_lt hz
    unfold create_class_pairs createClassPairsRun
    rw [hcidx]
    unfold classLoop
    rw [hzm] at hall ⊢
    obtain ⟨st', hml, -⟩ :=
      memberLoop_classes_le_one x [z1 :: m] 1 pos neg g 0 (z1 :: m) z1 m
        ⟨0, [], []⟩ (by omega) hall (by simp)
    rw [hml]
  · intro hnmem
    unfold create_class_pairs createClassPairsRun
    rw [hcidx, npWhereEq_eq_nil hnmem]
    rfl

/-- Counterexample for C4: the input `x = []`, `y = [0]`, `num_classes = 0`
violates every precondition named by the claim at once (`num_classes <= 0`,
label `0` outside `[0, 0)`, and `len(x) = 0 != 1 = len(y)`), yet
`create_class_pairs` returns normally with two empty arrays instead of
failing with `InvalidArgument`. -/
theorem create_class_pairs_c4_counterexample :
    create_class_pairs (α := Nat) (β := Int) [] [0] 0 1 0 (fun _ => 0) = .ok ([], []) := by
  rfl

/-- C4 (amended): `create_class_pairs` performs no argument validation and
never raises `InvalidArgument`: with `num_classes <= 0` it returns two empty
arrays; out-of-range labels simply join no class and are skipped; a length
mismatch is never checked (it surfaces, if at all, as an `IndexError` during
sample lookup). -/
theorem create_class_pairs_c4_amended {α β : Type} (x : List α) (y : List Int)
    (classes : Int) (pos neg : β) (g : Nat → Nat) :
    create_class_pairs x y classes pos neg g ≠ .error .invalidArgument ∧
    (classes ≤ 0 → create_class_pairs x y classes pos neg g = .ok ([], [])) := by
  constructor
  · intro h
    rcases create_class_pairs_err_kind h with h1 | h1 <;> exact PyErr.noConfusion h1
  · exact create_class_pairs_nonpos_classes x y pos neg g

/-- Witness for C4 (amended), at `x = [0]`, `y = [5]`, `num_classes = -3`. -/
theorem create_class_pairs_c4_amended_witness :
    create_class_pairs (α := Nat) (β := Int) [0] [5] (-3) 1 0 (fun _ => 0)
        ≠ .error .invalidArgument ∧
    create_class_pairs (α := Nat) (β := Int) [0] [5] (-3) 1 0 (fun _ => 0) = .ok ([], []) :=
  ⟨(create_class_pairs_c4_amended [0] [5] (-3) 1 0 (fun _ => 0)).1,
    (create_class_pairs_c4_amended [0] [5] (-3) 1 0 (fun _ => 0)).2 (by norm_num)⟩

/-- Counterexample for C5: `x = [3]`, `y = [7]`, `num_classes = 1` — no
sample has label `0`, so the single class is empty and the call returns
normally with two empty arrays; it does not fail at all, let alone with
`InvalidArgument`. -/
theorem create_class_pairs_c5_counterexample :
    create_class_pairs (α := Nat) (β := Int) [3] [7] 1 1 0 (fun _ => 0) = .ok ([], []) := by
  rfl

/-- Witness for C5 (amended): with `x = [3]`, `y = [0]`, `num_classes = 1`
the call fails with `ValueError`. -/
theorem create_class_pairs_c5_witness :
    create_class_pairs (α := Nat) (β := Int) [3] [0] 1 1 0 (fun _ => 0)
      = .error .valueError :=
  (create_class_pairs_classes_one [3] [0] 1 0 (fun _ => 0) (by rfl)).1 (by simp)

/-- Counterexample for C6: with `x = [7]`, `y = [0]`, `num_classes = 1` the
run raises `ValueError` (from `random.randrange(1, 1)`) only after the
positive pair `(7, 7)` with score `1` was already appended to the local
lists, so the failure is not up-front and pair-emitting work does happen
before it. -/
theorem create_class_pairs_c6_counterexample :
    createClassPairsRun (α := Nat) (β := Int) [7] [0] 1 1 0 (fun _ => 0)
      = (⟨1, [(7, 7)], [1]⟩, some .valueError) := by
  rfl

/-- C6 (amended): the code performs no up-front validation and can fail
after pair-building has begun, but the caller still never observes partial
results: whenever the run raises an exception, `create_class_pairs` returns
exactly that error and no pairs or scores (the partial lists die with the
frame). -/
theorem create_class_pairs_c6_amended {α β : Type} (x : List α) (y : List Int)
    (classes : Int) (pos neg : β) (g : Nat → Nat) (e : PyErr)
    (h : (createClassPairsRun x y classes pos neg g).2 = some e) :
    create_class_pairs x y classes pos neg g = .error e := by
  unfold create_class_pairs
  split
  · rename_i st hrun
    rw [hrun] at h
    exact absurd h (by simp)
  · rename_i st e1 hrun
    rw [hrun] at h
    simp only at h
    injection h with h
    rw [h]

/-- Witness for C6 (amended), at `x = [7]`, `y = [0]`, `num_classes = 1`. -/
theorem create_class_pairs_c6_witness :
    create_class_pairs (α := Nat) (β := Int) [7] [0] 1 1 0 (fun _ => 0)
      = .error .valueError :=
  create_class_pairs_c6_amended [7] [0] 1 1 0 (fun _ => 0) .valueError (by rfl)

/-! ### Structural decomposition of a successful run

For the structural claims (which classes the endpoints of each pair belong
to, how many pairs of each kind exist, and in which order they are emitted)
we instantiate the opaque samples `x` with their own dataset positions,
`x = List.range y.length`, so that an emitted pair is literally the pair of
positions it was built from.  `create_class_pairs` only ever reads `x`
through indexing, so this loses no generality over the sample values. -/

/-- One member's contribution to the pair list: its positive pair followed
immediately by its negative pair, when one was emitted.  A member is recorded
as `(z1, zp, on)`: its own position `z1`, the partner position `zp` of its
positive pair, and optionally the partner position of its negative pair. -/
def pairBlock (t : Nat × Nat × Option Nat) : List (Nat × Nat) :=
  (t.1, t.2.1) :: (t.2.2.map (fun w => (t.1, w))).toList

/-- One member's contribution to the score list: `pos`, then `neg` when a
negative pair was emitted. -/
def scoreBlock {β : Type} (pos neg : β) (t : Nat × Nat × Option Nat) : List β :=
  pos :: (t.2.2.map (fun _ => neg)).toList

theorem pyGet_range {M i : Nat} {v : Nat} (h : pyGet (List.range M) i = .ok v) :
    v = i := by
  have h1 := pyGet_ok h
  have hlt : i < M := by
    have := (pyGet_ok_lt h).1
    simpa using this
  rw [List.getElem?_range hlt] at h1
  injection h1 with h1
  exact h1.symm

theorem getD_of_getElem? {γ : Type} {l : List γ} {i : Nat} {v d₀ : γ}
    (h : l[i]? = some v) : l.getD i d₀ = v := by
  simp [List.getD_eq_getElem?_getD, h]

/-- The random partner class `(d + randrange(1, classes)) % classes` always
differs from `d`. -/
theorem partner_ne {d : Nat} {r classes : Int} (h1 : 1 ≤ r) (h2 : r < classes) :
    (((d : Int) + r) % classes).toNat ≠ d := by
  intro heq
  have hcl : (0 : Int) < classes := by omega
  have hnn : 0 ≤ ((d : Int) + r) % classes := Int.emod_nonneg _ (by omega)
  have hlt : ((d : Int) + r) % classes < classes := Int.emod_lt_of_pos _ hcl
  have hd : ((d : Int) + r) % classes = (d : Int) := by omega
  have hdnn : (0 : Int) ≤ (d : Int) := by omega
  have hmod : ((d : Int) + r) % classes = (d : Int) % classes := by
    rw [hd, Int.emod_eq_of_lt hdnn (by omega)]
  rw [Int.emod_eq_emod_iff_emod_sub_eq_zero] at hmod
  have hsub : (d : Int) + r - d = r := by ring
  rw [hsub] at hmod
  rw [Int.emod_eq_of_lt (by omega) h2] at hmod
  omega

theorem memberStepNeg_range_ok {β : Type} {M : Nat} {cidx : List (List Nat)}
    {classes : Int} {neg : β} {g : Nat → Nat} {d : Nat} {z1 : Nat}
    {st1 st' : PGState Nat β}
    (h : memberStepNeg (List.range M) cidx classes neg g d z1 st1 = (st', none)) :
    ∃ onp : Option Nat,
      st'.pairs = st1.pairs ++ (onp.map (fun w => (z1, w))).toList ∧
      st'.scores = st1.scores ++ (onp.map (fun _ => neg)).toList ∧
      ∀ w ∈ onp, ∃ dn : Nat, dn < cidx.length ∧ dn ≠ d ∧ w ∈ cidx.getD dn [] := by
  unfold memberStepNeg at h
  split at h
  · injection h with h1 h2
    exact Option.noConfusion h2
  · rename_i r k2 hr
    obtain ⟨hr1, hr2, -⟩ := randrange_ok hr
    split at h
    · injection h with h1 h2
      exact Option.noConfusion h2
    · rename_i idx_dn hdn
      have hdnlt := (pyGet_ok_lt hdn).1
      have hdnget : cidx.getD (((d : Int) + r) % classes).toNat [] = idx_dn :=
        getD_of_getElem? (pyGet_ok hdn)
      split at h
      · split at h
        · injection h with h1 h2
          exact Option.noConfusion h2
        · rename_i j2 k3 hj2
          split at h
          · injection h with h1 h2
            exact Option.noConfusion h2
          · rename_i z2n hz2n
            split at h
            · injection h with h1 h2
              exact Option.noConfusion h2
            · rename_i w1 hw1
              split at h
              · injection h with h1 h2
                exact Option.noConfusion h2
              · rename_i w2 hw2
                injection h with h1 h2
                subst h1
                refine ⟨some z2n, ?_, ?_, ?_⟩
                · have hv1 : w1 = z1 := pyGet_range hw1
                  have hv2 : w2 = z2n := pyGet_range hw2
                  simp [hv1, hv2]
                · simp
                · intro w hw
                  simp only [Option.mem_def, Option.some.injEq] at hw
                  subst hw
                  exact ⟨(((d : Int) + r) % classes).toNat, hdnlt,
                    partner_ne hr1 hr2, hdnget ▸ (pyGet_ok_lt hz2n).2⟩
      · injection h with h1 h2
        subst h1
        exact ⟨none, by simp, by simp, by simp⟩

theorem memberStep_range_ok {β : Type} {M : Nat} {cidx : List (List Nat)}
    {classes : Int} {pos neg : β} {g : Nat → Nat} {d : Nat} {idx_d : List Nat}
    {z1 : Nat} {st st' : PGState Nat β}
    (h : memberStep (List.range M) cidx classes pos neg g d idx_d z1 st = (st', none)) :
    ∃ t : Nat × Nat × Option Nat,
      t.1 = z1 ∧
      st'.pairs = st.pairs ++ pairBlock t ∧
      st'.scores = st.scores ++ scoreBlock pos neg t ∧
      t.2.1 ∈ idx_d ∧
      ∀ w ∈ t.2.2, ∃ dn : Nat, dn < cidx.length ∧ dn ≠ d ∧ w ∈ cidx.getD dn [] := by
  unfold memberStep at h
  split at h
  · injection h with h1 h2
    exact Option.noConfusion h2
  · rename_i j k1 hj
    split at h
    · injection h with h1 h2
      exact Option.noConfusion h2
    · rename_i z2 hz2
      split at h
      · injection h with h1 h2
        exact Option.noConfusion h2
      · rename_i v1 hv1
        split at h
        · injection h with h1 h2
          exact Option.noConfusion h2
        · rename_i v2 hv2
          obtain ⟨onp, hp, hs, hws⟩ := memberStepNeg_range_ok h
          have hv1e : v1 = z1 := pyGet_range hv1
          have hv2e : v2 = z2 := pyGet_range hv2
          refine ⟨(z1, z2, onp), rfl, ?_, ?_, (pyGet_ok_lt hz2).2, hws⟩
          · rw [hp]
            simp [pairBlock, hv1e, hv2e]
          · rw [hs]
            simp [scoreBlock]

theorem memberLoop_range_ok {β : Type} {M : Nat} {cidx : List (List Nat)}
    {classes : Int} {pos neg : β} {g : Nat → Nat} {d : Nat} {idx_d : List Nat}
    {m : List Nat} {st st' : PGState Nat β}
    (h : memberLoop (List.range M) cidx classes pos neg g d idx_d m st = (st', none)) :
    ∃ L : List (Nat × Nat × Option Nat),
      L.map (fun t => t.1) = m ∧
      st'.pairs = st.pairs ++ L.flatMap pairBlock ∧
      st'.scores = st.scores ++ L.flatMap (scoreBlock pos neg) ∧
      ∀ t ∈ L, t.2.1 ∈ idx_d ∧
        ∀ w ∈ t.2.2, ∃ dn : Nat, dn < cidx.length ∧ dn ≠ d ∧ w ∈ cidx.getD dn [] := by
  induction m generalizing st with
  | nil =>
    unfold memberLoop at h
    injection h with h1 h2
    subst h1
    exact ⟨[], rfl, by simp, by simp, by simp⟩
  | cons z1 rest ih =>
    unfold memberLoop at h
    split at h
    · rename_i st1 hstep
      obtain ⟨t, ht1, hp1, hs1, htm, htw⟩ := memberStep_range_ok hstep
      obtain ⟨L, hLm, hLp, hLs, hLw⟩ := ih h
      refine ⟨t :: L, ?_, ?_, ?_, ?_⟩
      · simp [hLm, ht1]
      · rw [hLp, hp1, List.flatMap_cons, List.append_assoc]
      · rw [hLs, hs1, List.flatMap_cons, List.append_assoc]
      · intro u hu
        rcases List.mem_cons.mp hu with hu | hu
        · exact hu ▸ ⟨htm, htw⟩
        · exact hLw u hu
    · rename_i st1 e hstep
      injection h with h1 h2
      exact Option.noConfusion h2

theorem classLoop_range_ok {β : Type} {M : Nat} {cidx : List (List Nat)}
    {classes : Int} {pos neg : β} {g : Nat → Nat} {restC : List (List Nat)}
    {d : Nat} {st st' : PGState Nat β}
    (h : classLoop (List.range M) cidx classes pos neg g restC d st = (st', none)) :
    ∃ LL : List (List (Nat × Nat × Option Nat)),
      List.Forall₂ (fun l p =>
          l.map (fun t => t.1) = p.2 ∧
          ∀ t ∈ l, t.2.1 ∈ p.2 ∧
            ∀ w ∈ t.2.2, ∃ dn : Nat, dn < cidx.length ∧ dn ≠ p.1 ∧ w ∈ cidx.getD dn [])
        LL ((List.range' d restC.length).zip restC) ∧
      st'.pairs = st.pairs ++ LL.flatMap (fun l => l.flatMap pairBlock) ∧
      st'.scores = st.scores ++ LL.flatMap (fun l => l.flatMap (scoreBlock pos neg)) := by
  induction restC generalizing st d with
  | nil =>
    unfold classLoop at h
    injection h with h1 h2
    subst h1
    exact ⟨[], by simp, by simp, by simp⟩
  | cons idx_d rest ih =>
    unfold classLoop at h
    split at h
    · rename_i st1 hml
      obtain ⟨L, hLm, hLp, hLs, hLw⟩ := memberLoop_range_ok hml
      obtain ⟨LL, hF, hp, hs⟩ := ih h
      refine ⟨L :: LL, ?_, ?_, ?_⟩
      · rw [List.length_cons, List.range'_succ, List.zip_cons_cons]
        exact List.forall₂_cons.mpr ⟨⟨hLm, hLw⟩, hF⟩
      · rw [hp, hLp, List.flatMap_cons, List.append_assoc]
      · rw [hs, hLs, List.flatMap_cons, List.append_assoc]
    · rename_i st1 e hml
      injection h with h1 h2
      exact Option.noConfusion h2

/-- Structural decomposition of a successful run of `create_class_pairs` on
`x = List.range y.length`: the pair list and score list split into one block
per class (in class order, aligned with `classes_idx`), each class's part
splitting into one block per member (in member order), and each member's
block being its positive pair with score `pos` followed optionally by its
negative pair with score `neg`.  The recorded data also carry the class
memberships of all partner positions. -/
theorem create_class_pairs_decomposition {β : Type} {y : List Int} {classes : Int}
    {pos neg : β} {g : Nat → Nat} {ps : List (Nat × Nat)} {ss : List β}
    (h : create_class_pairs (List.range y.length) y classes pos neg g = .ok (ps, ss)) :
    ∃ LL : List (List (Nat × Nat × Option Nat)),
      List.Forall₂ (fun l p =>
          l.map (fun t => t.1) = p.2 ∧
          ∀ t ∈ l, t.2.1 ∈ p.2 ∧
            ∀ w ∈ t.2.2, ∃ dn : Nat, dn < (classesIdx y classes).length ∧ dn ≠ p.1 ∧
              w ∈ (classesIdx y classes).getD dn [])
        LL ((List.range (classesIdx y classes).length).zip (classesIdx y classes)) ∧
      ps = LL.flatMap (fun l => l.flatMap pairBlock) ∧
      ss = LL.flatMap (fun l => l.flatMap (scoreBlock pos neg)) := by
  unfold create_class_pairs createClassPairsRun at h
  split at h
  · rename_i st hrun
    injection h with h
    injection h with h1 h2
    obtain ⟨LL, hF, hp, hs⟩ := classLoop_range_ok hrun
    refine ⟨LL, ?_, by simp [← h1, hp], by simp [← h2, hs]⟩
    rwa [List.range_eq_range']
  · exact absurd h (by simp)

/-! ### Generic list helpers for the counting and ordering claims -/

theorem forall2_mem_left {γ ε : Type} {R : γ → ε → Prop} {L : List γ} {E : List ε}
    (h : List.Forall₂ R L E) {a : γ} (ha : a ∈ L) : ∃ b ∈ E, R a b := by
  induction h with
  | nil => exact absurd ha (List.not_mem_nil a)
  | cons hab hF ih =>
    rcases List.mem_cons.mp ha with ha | ha
    · exact ⟨_, List.mem_cons_self _ _, ha ▸ hab⟩
    · obtain ⟨b, hb, hR⟩ := ih ha
      exact ⟨b, List.mem_cons_of_mem _ hb, hR⟩

theorem forall2_map_eq {γ ε δ : Type} {R : γ → ε → Prop} {L : List γ} {E : List ε}
    (h : List.Forall₂ R L E) (F : γ → δ) (G : ε → δ)
    (hFG : ∀ a b, R a b → F a = G b) : L.map F = E.map G := by
  induction h with
  | nil => rfl
  | cons hab hF ih => simp only [List.map_cons, hFG _ _ hab, ih]

theorem forall2_sum_eq {γ ε : Type} {R : γ → ε → Prop} {L : List γ} {E : List ε}
    (h : List.Forall₂ R L E) (F : γ → Nat) (G : ε → Nat)
    (hFG : ∀ a b, R a b → F a = G b) : (L.map F).sum = (E.map G).sum := by
  rw [forall2_map_eq h F G hFG]

theorem countP_flatMap_eq {γ δ : Type} (q : δ → Bool) (f : γ → List δ) (L : List γ) :
    (L.flatMap f).countP q = (L.map (fun a => (f a).countP q)).sum := by
  induction L with
  | nil => rfl
  | cons a L ih => simp [List.flatMap_cons, List.countP_append, ih]

theorem flatMap_zip {γ δ ε : Type} (L : List γ) (f : γ → List δ) (s : γ → List ε)
    (hlen : ∀ t, (f t).length = (s t).length) :
    (L.flatMap f).zip (L.flatMap s) = L.flatMap (fun t => (f t).zip (s t)) := by
  induction L with
  | nil => rfl
  | cons a L ih =>
    simp only [List.flatMap_cons]
    rw [List.zip_append (hlen a), ih]

theorem pairBlock_length {β : Type} (pos neg : β) (t : Nat × Nat × Option Nat) :
    (pairBlock t).length = (scoreBlock pos neg t).length := by
  rcases t with ⟨z1, zp, onp⟩
  cases onp <;> simp [pairBlock, scoreBlock]

/-- The zipped class/index list driving the outer loop, in closed form. -/
theorem range_zip_classesIdx (y : List Int) (classes : Int) :
    (List.range (classesIdx y classes).length).zip (classesIdx y classes)
      = (List.range classes.toNat).map (fun (d : Nat) => (d, npWhereEq y (d : Int))) := by
  have h := List.zip_map' id (fun i => npWhereEq y (Int.ofNat i)) (List.range classes.toNat)
  rw [List.map_id] at h
  rw [classesIdx_length]
  unfold classesIdx
  rw [h]
  rfl

/-- Summing an indicator-weighted family over `range C`. -/
theorem sum_ite_range_eq (C : Nat) (F : Nat → Nat) (a : Int) :
    ((List.range C).map (fun (d : Nat) => if a = (d : Int) then F d else 0)).sum
      = if 0 ≤ a ∧ a < (C : Int) then F a.toNat else 0 := by
  induction C with
  | zero =>
    simp only [List.range_zero, List.map_nil, List.sum_nil]
    rw [if_neg (by omega)]
  | succ C ih =>
    rw [List.range_succ, List.map_append, List.sum_append, ih]
    simp only [List.map_cons, List.map_nil, List.sum_cons, List.sum_nil, Nat.add_zero]
    by_cases hd : a = (C : Int)
    · have h1 : ¬(0 ≤ a ∧ a < (C : Int)) := by omega
      have h2 : 0 ≤ a ∧ a < ((C + 1 : Nat) : Int) := by push_cast; omega
      have h3 : a.toNat = C := by omega
      rw [if_neg h1, if_pos hd, if_pos h2, h3]
      simp
    · rw [if_neg hd]
      by_cases h1 : 0 ≤ a ∧ a < (C : Int)
      · have h2 : 0 ≤ a ∧ a < ((C + 1 : Nat) : Int) := by push_cast; omega
        rw [if_pos h1, if_pos h2, Nat.add_zero]
      · have h2 : ¬(0 ≤ a ∧ a < ((C + 1 : Nat) : Int)) := by
          push_cast at h1 ⊢
          omega
        rw [if_neg h1, if_neg h2]

theorem sum_countP_range {classes : Int} (y : List Int)
    (hy : ∀ l ∈ y, 0 ≤ l ∧ l < classes) :
    ((List.range classes.toNat).map
        (fun (d : Nat) => y.countP (fun l => decide (l = (d : Int))))).sum = y.length := by
  induction y with
  | nil => simp
  | cons a y' ih =>
    simp only [List.countP_cons, List.length_cons]
    rw [List.sum_map_add, ih (fun l hl => hy l (List.mem_cons_of_mem a hl))]
    obtain ⟨ha1, ha2⟩ := hy a (List.mem_cons_self a y')
    have hone : ((List.range classes.toNat).map
        (fun (d : Nat) => if (decide (a = (d : Int))) = true then 1 else 0)).sum = 1 := by
      simp only [decide_eq_true_eq]
      rw [sum_ite_range_eq classes.toNat (fun _ => 1) a, if_pos (by omega)]
    rw [hone]

/-- When every label lies in `[0, classes)`, the class sizes sum to the
dataset size. -/
theorem sum_class_sizes {y : List Int} {classes : Int}
    (hy : ∀ l ∈ y, 0 ≤ l ∧ l < classes) :
    ((List.range classes.toNat).map (fun (d : Nat) => (npWhereEq y (d : Int)).length)).sum
      = y.length := by
  simp only [length_npWhereEq]
  exact sum_countP_range y hy

/-- The zipped pair/score output decomposes into the same blocks. -/
theorem zip_decomposition {β : Type} {y : List Int} {classes : Int}
    {pos neg : β} {g : Nat → Nat} {ps : List (Nat × Nat)} {ss : List β}
    (h : create_class_pairs (List.range y.length) y classes pos neg g = .ok (ps, ss)) :
    ∃ LL : List (List (Nat × Nat × Option Nat)),
      List.Forall₂ (fun l p =>
          l.map (fun t => t.1) = p.2 ∧
          ∀ t ∈ l, t.2.1 ∈ p.2 ∧
            ∀ w ∈ t.2.2, ∃ dn : Nat, dn < (classesIdx y classes).length ∧ dn ≠ p.1 ∧
              w ∈ (classesIdx y classes).getD dn [])
        LL ((List.range (classesIdx y classes).length).zip (classesIdx y classes)) ∧
      ps = LL.flatMap (fun l => l.flatMap pairBlock) ∧
      ss = LL.flatMap (fun l => l.flatMap (scoreBlock pos neg)) ∧
      ps.zip ss
        = LL.flatMap (fun l => l.flatMap (fun t => (pairBlock t).zip (scoreBlock pos neg t))) := by
  obtain ⟨LL, hF, hp, hs⟩ := create_class_pairs_decomposition h
  refine ⟨LL, hF, hp, hs, ?_⟩
  have hinner : ∀ l : List (Nat × Nat × Option Nat),
      (l.flatMap pairBlock).zip (l.flatMap (scoreBlock pos neg))
        = l.flatMap (fun t => (pairBlock t).zip (scoreBlock pos neg t)) :=
    fun l => flatMap_zip l _ _ (fun t => pairBlock_length pos neg t)
  have houter : ∀ l : List (Nat × Nat × Option Nat),
      (l.flatMap pairBlock).length = (l.flatMap (scoreBlock pos neg)).length := by
    intro l
    rw [List.length_flatMap, List.length_flatMap]
    exact congrArg List.sum
      (List.map_congr_left (fun t _ => pairBlock_length pos neg t))
  rw [hp, hs, flatMap_zip LL _ _ houter]
  simp only [hinner]

/-- C7: with the samples identified with their dataset positions
(`x = List.range y.length`), a successful run's pair and score lists
decompose as a concatenation over the classes in order `0..classes-1`
(aligned block-for-block with `classes_idx`), within a class as a
concatenation over that class's members in member order (the first component
of each member's records is exactly that class's member-position list), and
each member's block is its positive pair with score `pos` immediately
followed by its negative pair with score `neg` whenever one was emitted. -/
theorem create_class_pairs_ordering {β : Type} (y : List Int) (classes : Int)
    (pos neg : β) (g : Nat → Nat) (ps : List (Nat × Nat)) (ss : List β)
    (h : create_class_pairs (List.range y.length) y classes pos neg g = .ok (ps, ss)) :
    ∃ LL : List (List (Nat × Nat × Option Nat)),
      LL.map (List.map (fun t => t.1)) = classesIdx y classes ∧
      ps = LL.flatMap (fun l => l.flatMap pairBlock) ∧
      ss = LL.flatMap (fun l => l.flatMap (scoreBlock pos neg)) := by
  obtain ⟨LL, hF, hp, hs⟩ := create_class_pairs_decomposition h
  refine ⟨LL, ?_, hp, hs⟩
  have hmap := forall2_map_eq hF (fun l => l.map (fun t => t.1)) Prod.snd
    (fun a b hR => hR.1)
  rw [hmap, List.map_snd_zip]
  rw [List.length_range]

/-- Witness for C7 at `y = [0, 0, 1, 1]`, two classes. -/
theorem create_class_pairs_ordering_witness :
    ∃ LL : List (List (Nat × Nat × Option Nat)),
      LL.map (List.map (fun t => t.1)) = classesIdx [0, 0, 1, 1] 2 ∧
      [(0, 1), (0, 3), (1, 0), (1, 2), (2, 3), (2, 1), (3, 2), (3, 0)]
        = LL.flatMap (fun l => l.flatMap pairBlock) ∧
      [(1 : Int), 0, 1, 0, 1, 0, 1, 0]
        = LL.flatMap (fun l => l.flatMap (scoreBlock 1 0)) :=
  create_class_pairs_ordering [0, 0, 1, 1] 2 1 0 (fun k => k * 3 + 1)
    [(0, 1), (0, 3), (1, 0), (1, 2), (2, 3), (2, 1), (3, 2), (3, 0)]
    [1, 0, 1, 0, 1, 0, 1, 0] (by rfl)

/-- C3: with the samples identified with their dataset positions, every
entry of the zipped output carrying score `pos` joins two positions with the
same label, and every entry carrying score `neg` joins two positions with
different labels (the partner class `(d + r) mod classes`, `r` drawn from
`[1, classes)`, always differs from `d`). -/
theorem create_class_pairs_pair_classes {β : Type} (y : List Int) (classes : Int)
    (pos neg : β) (g : Nat → Nat) (ps : List (Nat × Nat)) (ss : List β)
    (hc : 1 < classes) (hy : ∀ l ∈ y, 0 ≤ l ∧ l < classes) (hpn : pos ≠ neg)
    (h : create_class_pairs (List.range y.length) y classes pos neg g = .ok (ps, ss))
    (e : (Nat × Nat) × β) (he : e ∈ ps.zip ss) :
    (e.2 = pos → ∃ c : Int, y[e.1.1]? = some c ∧ y[e.1.2]? = some c) ∧
    (e.2 = neg → ∃ c1 c2 : Int, y[e.1.1]? = some c1 ∧ y[e.1.2]? = some c2 ∧ c1 ≠ c2) := by
  obtain ⟨LL, hF, -, -, hzip⟩ := zip_decomposition h
  rw [hzip] at he
  obtain ⟨l, hl, he2⟩ := List.mem_flatMap.mp he
  obtain ⟨t, ht, he3⟩ := List.mem_flatMap.mp he2
  obtain ⟨p, hpE, hR⟩ := forall2_mem_left hF hl
  rw [range_zip_classesIdx] at hpE
  obtain ⟨d, hd, hpd⟩ := List.mem_map.mp hpE
  subst hpd
  obtain ⟨hRm, hRt⟩ := hR
  simp only at hRm hRt
  have ht1mem : t.1 ∈ npWhereEq y (d : Int) := hRm ▸ List.mem_map_of_mem _ ht
  have hy1 : y[t.1]? = some (d : Int) := mem_npWhereEq ht1mem
  obtain ⟨htp, htw⟩ := hRt t ht
  have hy2 : y[t.2.1]? = some (d : Int) := mem_npWhereEq htp
  rcases t with ⟨z1, zp, onp⟩
  simp only at hy1 hy2 htw
  cases onp with
  | none =>
    simp only [pairBlock, scoreBlock, Option.map_none', Option.toList_none,
      List.zip_cons_cons, List.zip_nil_right, List.mem_singleton] at he3
    subst he3
    exact ⟨fun _ => ⟨(d : Int), hy1, hy2⟩,
      fun hq => absurd (show pos = neg from hq) hpn⟩
  | some w =>
    obtain ⟨dn, hdn, hdnne, hw⟩ := htw w (by simp)
    have hgd : (classesIdx y classes).getD dn [] = npWhereEq y (dn : Int) :=
      getD_of_getElem? (classesIdx_getElem? (by rwa [classesIdx_length] at hdn))
    have hyw : y[w]? = some (dn : Int) := mem_npWhereEq (hgd ▸ hw)
    simp only [pairBlock, scoreBlock, Option.map_some', Option.toList_some,
      List.zip_cons_cons, List.zip_nil_right] at he3
    rcases List.mem_cons.mp he3 with he4 | he5
    · subst he4
      exact ⟨fun _ => ⟨(d : Int), hy1, hy2⟩,
        fun hq => absurd (show pos = neg from hq) hpn⟩
    · rcases List.mem_cons.mp he5 with he4 | he6
      · subst he4
        refine ⟨fun hq => absurd (show pos = neg from hq.symm) hpn,
          fun _ => ⟨(d : Int), (dn : Int), hy1, hyw, ?_⟩⟩
        intro hcast
        exact hdnne (by exact_mod_cast hcast.symm)
      · exact absurd he6 (List.not_mem_nil e)

/-- Witness for C3 at `y = [0, 0, 1, 1]`: the second emitted pair `(0, 3)`
has score `neg = 0` and joins a label-`0` position with a label-`1`
position. -/
theorem create_class_pairs_pair_classes_witness :
    ∃ c1 c2 : Int, ([0, 0, 1, 1] : List Int)[0]? = some c1 ∧
      ([0, 0, 1, 1] : List Int)[3]? = some c2 ∧ c1 ≠ c2 :=
  (create_class_pairs_pair_classes [0, 0, 1, 1] 2 1 0 (fun k => k * 3 + 1)
    [(0, 1), (0, 3), (1, 0), (1, 2), (2, 3), (2, 1), (3, 2), (3, 0)]
    [1, 0, 1, 0, 1, 0, 1, 0] (by norm_num) (by decide) (by norm_num) (by rfl)
    ((0, 3), 0) (by decide)).2 (by rfl)

/-- C2: with the samples identified with their dataset positions, every
class `c` contributes exactly `n_c` (its member count) entries scored `pos`
whose first endpoint has label `c`; the total number of `pos`-scored entries
equals the dataset size; and the number of `neg`-scored entries is at most
the dataset size. -/
theorem create_class_pairs_counts {β : Type} [DecidableEq β] (y : List Int)
    (classes : Int) (pos neg : β) (g : Nat → Nat) (ps : List (Nat × Nat))
    (ss : List β) (hc : 1 < classes) (hy : ∀ l ∈ y, 0 ≤ l ∧ l < classes)
    (hpn : pos ≠ neg)
    (h : create_class_pairs (List.range y.length) y classes pos neg g = .ok (ps, ss)) :
    (∀ c : Int, 0 ≤ c → c < classes →
        (ps.zip ss).countP
            (fun e => decide (e.2 = pos) && decide (y[e.1.1]? = some c))
          = (npWhereEq y c).length) ∧
    ss.countP (fun s => decide (s = pos)) = y.length ∧
    ss.countP (fun s => decide (s = neg)) ≤ y.length := by
  obtain ⟨LL, hF, hp, hs, hzip⟩ := zip_decomposition h
  rw [range_zip_classesIdx, List.forall₂_map_right_iff] at hF
  have hsumLen : (LL.map (fun l => l.length)).sum = y.length := by
    have he := forall2_sum_eq hF (fun l => l.length)
      (fun d => (npWhereEq y (d : Int)).length)
      (fun l d hR => by
        have h1 := hR.1
        simp only at h1
        show l.length = (npWhereEq y (d : Int)).length
        rw [← h1, List.length_map])
    rw [he]
    exact sum_class_sizes hy
  have hposcount : ss.countP (fun s => decide (s = pos)) = y.length := by
    rw [hs, countP_flatMap_eq]
    have hl : ∀ l : List (Nat × Nat × Option Nat),
        (l.flatMap (scoreBlock pos neg)).countP (fun s => decide (s = pos))
          = l.length := by
      intro l
      rw [countP_flatMap_eq]
      have ht : ∀ t : Nat × Nat × Option Nat,
          (scoreBlock pos neg t).countP (fun s => decide (s = pos)) = 1 := by
        intro t
        rcases t with ⟨z1, zp, onp⟩
        cases onp <;>
          simp [scoreBlock, (show ¬(neg = pos) from fun hh => hpn hh.symm)]
      simp only [ht]
      simp
    simp only [hl]
    exact hsumLen
  have hnegcount : ss.countP (fun s => decide (s = neg)) ≤ y.length := by
    rw [hs, countP_flatMap_eq]
    have hl : ∀ l : List (Nat × Nat × Option Nat),
        (l.flatMap (scoreBlock pos neg)).countP (fun s => decide (s = neg))
          ≤ l.length := by
      intro l
      rw [countP_flatMap_eq]
      have ht : ∀ t ∈ l,
          (scoreBlock pos neg t).countP (fun s => decide (s = neg)) ≤ 1 := by
        intro t _
        rcases t with ⟨z1, zp, onp⟩
        cases onp <;> simp [scoreBlock, hpn]
      calc (l.map (fun t => (scoreBlock pos neg t).countP
              (fun s => decide (s = neg)))).sum
          ≤ (l.map (fun _ => 1)).sum := List.sum_le_sum ht
        _ = l.length := by simp
    calc (LL.map (fun l => (l.flatMap (scoreBlock pos neg)).countP
            (fun s => decide (s = neg)))).sum
        ≤ (LL.map (fun l => l.length)).sum := List.sum_le_sum (fun l _ => hl l)
      _ = y.length := hsumLen
  refine ⟨fun c hc0 hcc => ?_, hposcount, hnegcount⟩
  rw [hzip, countP_flatMap_eq]
  have hFG : ∀ (l : List (Nat × Nat × Option Nat)) (d : Nat),
      (List.map (fun t => t.1) l = ((fun (d : Nat) => (d, npWhereEq y (d : Int))) d).2 ∧
        ∀ t ∈ l, t.2.1 ∈ ((fun (d : Nat) => (d, npWhereEq y (d : Int))) d).2 ∧
          ∀ w ∈ t.2.2, ∃ dn : Nat, dn < (classesIdx y classes).length ∧
            dn ≠ ((fun (d : Nat) => (d, npWhereEq y (d : Int))) d).1 ∧
            w ∈ (classesIdx y classes).getD dn []) →
      (l.flatMap (fun t => (pairBlock t).zip (scoreBlock pos neg t))).countP
          (fun e => decide (e.2 = pos) && decide (y[e.1.1]? = some c))
        = if c = (d : Int) then (npWhereEq y (d : Int)).length else 0 := by
    intro l d hR
    obtain ⟨hRm, hRt⟩ := hR
    simp only at hRm hRt
    rw [countP_flatMap_eq]
    have hll : l.length = (npWhereEq y (d : Int)).length := by
      rw [← hRm, List.length_map]
    have hblocks : ∀ t ∈ l,
        ((pairBlock t).zip (scoreBlock pos neg t)).countP
            (fun e => decide (e.2 = pos) && decide (y[e.1.1]? = some c))
          = if c = (d : Int) then 1 else 0 := by
      intro t ht
      have ht1 : t.1 ∈ npWhereEq y (d : Int) := hRm ▸ List.mem_map_of_mem _ ht
      have hy1 : y[t.1]? = some (d : Int) := mem_npWhereEq ht1
      rcases t with ⟨z1, zp, onp⟩
      simp only at hy1
      by_cases hcd : c = (d : Int)
      · cases onp <;>
          simp [pairBlock, scoreBlock, hy1, hcd,
            (show ¬(neg = pos) from fun hh => hpn hh.symm)]
      · have hdc : ¬((d : Int) = c) := fun hh => hcd hh.symm
        cases onp <;>
          simp [pairBlock, scoreBlock, hy1, hcd, hdc,
            (show ¬(neg = pos) from fun hh => hpn hh.symm)]
    rw [List.map_congr_left hblocks]
    by_cases hcd : c = (d : Int)
    · simp only [if_pos hcd]
      have hone : (l.map (fun _ => (1 : Nat))).sum = l.length := by simp
      rw [hone, hll]
    · simp only [if_neg hcd]
      simp
  have he := forall2_sum_eq hF
    (fun l => (l.flatMap (fun t => (pairBlock t).zip (scoreBlock pos neg t))).countP
      (fun e => decide (e.2 = pos) && decide (y[e.1.1]? = some c)))
    (fun d => if c = (d : Int) then (npWhereEq y (d : Int)).length else 0) hFG
  rw [he, sum_ite_range_eq classes.toNat (fun d => (npWhereEq y (d : Int)).length) c,
    if_pos (by omega)]
  rw [show ((c.toNat : Nat) : Int) = c from Int.toNat_of_nonneg hc0]

/-- Witness for C2 at `y = [0, 0, 1, 1]`, two classes: four of the eight
emitted scores equal `pos = 1`, matching the dataset size. -/
theorem create_class_pairs_counts_witness :
    ([(1 : Int), 0, 1, 0, 1, 0, 1, 0]).countP (fun s => decide (s = (1 : Int)))
      = ([(0 : Int), 0, 1, 1]).length :=
  (create_class_pairs_counts [0, 0, 1, 1] 2 1 0 (fun k => k * 3 + 1)
    [(0, 1), (0, 3), (1, 0), (1, 2), (2, 3), (2, 1), (3, 2), (3, 0)]
    [1, 0, 1, 0, 1, 0, 1, 0] (by norm_num) (by decide) (by norm_num) (by rfl)).2.1

/-! ### C8: `random_targets` -/

/-- The one random alternate class drawn for class `ci` (the `class_ind`-th
loop iteration consults the generator exactly once, so its counter equals
`ci`). -/
def choiceFor (g : Nat → Nat) (nb ci : Nat) : Int :=
  (otherClasses nb ci).getD (g ci % (otherClasses nb ci).length) 0

theorem otherClasses_ne_nil (ci : Nat) {nb : Nat} (h : 2 ≤ nb) :
    (otherClasses nb ci).length ≠ 0 := by
  unfold otherClasses
  simp only [List.length_map]
  intro hlen
  rw [List.length_eq_zero] at hlen
  have h0 := List.filter_eq_nil_iff.mp hlen 0 (by simp [List.mem_range]; omega)
  have h1 := List.filter_eq_nil_iff.mp hlen 1 (by simp [List.mem_range]; omega)
  simp only [decide_eq_true_eq, not_not] at h0 h1
  omega

theorem choiceFor_spec (g : Nat → Nat) (nb ci : Nat) (h : 2 ≤ nb) :
    0 ≤ choiceFor g nb ci ∧ choiceFor g nb ci < (nb : Int)
      ∧ choiceFor g nb ci ≠ (ci : Int) := by
  have hne := otherClasses_ne_nil ci h
  have hidx : g ci % (otherClasses nb ci).length < (otherClasses nb ci).length :=
    Nat.mod_lt _ (Nat.pos_of_ne_zero hne)
  have hmem : choiceFor g nb ci ∈ otherClasses nb ci := by
    unfold choiceFor
    rw [getD_of_getElem? (List.getElem?_eq_getElem hidx)]
    exact List.getElem_mem hidx
  unfold otherClasses at hmem
  obtain ⟨j, hj, hji⟩ := List.mem_map.mp hmem
  have hjf := List.mem_filter.mp hj
  have hjr : j < nb := List.mem_range.mp hjf.1
  have hjne : j ≠ ci := by simpa using hjf.2
  refine ⟨?_, ?_, ?_⟩
  · rw [← hji]; exact Int.ofNat_nonneg j
  · rw [← hji]
    show (j : Int) < (nb : Int)
    exact_mod_cast hjr
  · rw [← hji]
    show (j : Int) ≠ (ci : Int)
    exact_mod_cast hjne

theorem getD_map_toCat (l : List Int) (nb : Nat) (p : Nat) (hp : p < l.length) :
    (l.map (fun r => to_categorical r nb)).getD p [] = to_categorical (l.getD p 0) nb := by
  rw [List.getD_eq_getElem?_getD, List.getElem?_map, List.getElem?_eq_getElem hp,
    List.getD_eq_getElem?_getD, List.getElem?_eq_getElem hp]
  rfl

theorem getD_zipWith_upd {f : Int → Int → Int} {a b : List Int} {p : Nat}
    (ha : p < a.length) (hb : p < b.length) :
    (List.zipWith f a b).getD p 0 = f (a.getD p 0) (b.getD p 0) := by
  rw [List.getD_eq_getElem?_getD, List.getElem?_zipWith,
    List.getElem?_eq_getElem ha, List.getElem?_eq_getElem hb,
    List.getD_eq_getElem?_getD (l := a), List.getElem?_eq_getElem ha,
    List.getD_eq_getElem?_getD (l := b), List.getElem?_eq_getElem hb]
  rfl

/-- The loop of `random_targets` over classes `[s, s+n)` starting at draw
counter `s`: it never fails when `nb >= 2`, and the final `result` holds, at
each position `p`, the shared draw `choiceFor` for `gt[p]` when `gt[p]` lies
in the processed class range, and the incoming value otherwise. -/
theorem rtLoop_spec (g : Nat → Nat) (nb : Nat) (gt : List Int) (hnb : 2 ≤ nb) :
    ∀ (n s : Nat) (res : List Int), res.length = gt.length →
      ∃ res', rtLoop g nb gt (List.range' s n) s res = .ok res' ∧
        res'.length = gt.length ∧
        ∀ p : Nat, p < gt.length →
          res'.getD p 0 =
            if (s : Int) ≤ gt.getD p 0 ∧ gt.getD p 0 < (s : Int) + (n : Int) then
              choiceFor g nb (gt.getD p 0).toNat
            else res.getD p 0 := by
  intro n
  induction n with
  | zero =>
    intro s res hlen
    refine ⟨res, rfl, hlen, fun p hp => ?_⟩
    rw [if_neg (by push_cast; omega)]
  | succ n ih =>
    intro s res hlen
    have hchoice : np_random_choice g s (otherClasses nb s)
        = .ok (choiceFor g nb s, s + 1) := by
      unfold np_random_choice
      rw [if_neg (otherClasses_ne_nil s hnb)]
      rfl
    have hlen1 : (List.zipWith (fun r l => if l = (s : Int) then choiceFor g nb s else r)
        res gt).length = gt.length := by
      rw [List.length_zipWith, hlen, Nat.min_self]
    obtain ⟨res', hres', hlen', hpt⟩ := ih (s + 1) _ hlen1
    refine ⟨res', ?_, hlen', fun p hp => ?_⟩
    · rw [List.range'_succ]
      unfold rtLoop
      rw [hchoice]
      exact hres'
    · have hpa : p < res.length := by omega
      rw [hpt p hp, getD_zipWith_upd (a := res) (b := gt) (p := p) hpa hp]
      split_ifs with h1 h2 h3 h4
      · rfl
      · omega
      · have he2 : (gt.getD p 0).toNat = s := by omega
        rw [he2]
      · omega
      · omega
      · rfl

/-- C8: with all labels in `[0, nb_classes)` and `nb_classes > 1`,
`random_targets` returns one one-hot row per sample; each row marks a target
class different from the sample's true class, and any two samples with the
same true label get the same target class within the invocation (one shared
draw per class, applied to all of that class's samples). -/
theorem random_targets_spec (gt : List Int) (nb : Nat) (g : Nat → Nat)
    (hnb : 1 < nb) (hgt : ∀ l ∈ gt, 0 ≤ l ∧ l < (nb : Int)) :
    ∃ res, random_targets gt nb g = .ok res ∧ res.length = gt.length ∧
      (∀ p : Nat, p < gt.length →
        ∃ t : Nat, t < nb ∧ (t : Int) ≠ gt.getD p 0 ∧
          res.getD p [] = to_categorical (t : Int) nb) ∧
      (∀ p q : Nat, p < gt.length → q < gt.length →
        gt.getD p 0 = gt.getD q 0 → res.getD p [] = res.getD q []) := by
  obtain ⟨res1, hres1, hlen1, hpt⟩ :=
    rtLoop_spec g nb gt (by omega) nb 0 (gt.map (fun _ => 0))
      (by rw [List.length_map])
  have hgetd : ∀ p : Nat, p < gt.length → 0 ≤ gt.getD p 0 ∧ gt.getD p 0 < (nb : Int) := by
    intro p hp
    have : gt.getD p 0 ∈ gt := by
      rw [List.getD_eq_getElem?_getD, List.getElem?_eq_getElem hp]
      exact List.getElem_mem hp
    exact hgt _ this
  have hval : ∀ p : Nat, p < gt.length →
      res1.getD p 0 = choiceFor g nb (gt.getD p 0).toNat := by
    intro p hp
    rw [hpt p hp, if_pos (by have := hgetd p hp; push_cast; omega)]
  refine ⟨res1.map (fun r => to_categorical r nb), ?_, ?_, ?_, ?_⟩
  · unfold random_targets
    rw [List.range_eq_range', hres1]
  · rw [List.length_map, hlen1]
  · intro p hp
    have hcf := choiceFor_spec g nb (gt.getD p 0).toNat (by omega)
    refine ⟨(choiceFor g nb (gt.getD p 0).toNat).toNat, by omega, ?_, ?_⟩
    · have h0 := (hgetd p hp).1
      intro hq
      exact hcf.2.2 (by omega)
    · rw [getD_map_toCat res1 nb p (by omega), hval p hp,
        show ((choiceFor g nb (gt.getD p 0).toNat).toNat : Int)
          = choiceFor g nb (gt.getD p 0).toNat from Int.toNat_of_nonneg hcf.1]
  · intro p q hp hq heq
    rw [getD_map_toCat res1 nb p (by omega), getD_map_toCat res1 nb q (by omega),
      hval p hp, hval q hq, heq]

/-- Witness for C8 at `gt = [0, 1, 0]`, `nb_classes = 2`. -/
theorem random_targets_spec_witness :
    ∃ res, random_targets [0, 1, 0] 2 (fun _ => 0) = .ok res ∧
      res.length = ([0, 1, 0] : List Int).length ∧
      (∀ p : Nat, p < ([0, 1, 0] : List Int).length →
        ∃ t : Nat, t < 2 ∧ (t : Int) ≠ ([0, 1, 0] : List Int).getD p 0 ∧
          res.getD p [] = to_categorical (t : Int) 2) ∧
      (∀ p q : Nat, p < ([0, 1, 0] : List Int).length →
        q < ([0, 1, 0] : List Int).length →
        ([0, 1, 0] : List Int).getD p 0 = ([0, 1, 0] : List Int).getD q 0 →
        res.getD p [] = res.getD q []) :=
  random_targets_spec [0, 1, 0] 2 (fun _ => 0) (by norm_num) (by decide)

/-! ### C10: `get_label_conf` -/

theorem foldl_max_spec : ∀ (rest : List ℚ) (a : ℚ),
    rest.foldl max a ∈ a :: rest ∧ a ≤ rest.foldl max a ∧
      ∀ v ∈ rest, v ≤ rest.foldl max a := by
  intro rest
  induction rest with
  | nil => exact fun a => ⟨List.mem_cons_self a [], le_refl a, by simp⟩
  | cons v rest ih =>
    intro a
    obtain ⟨hmem, hle, hall⟩ := ih (max a v)
    rw [List.foldl_cons]
    refine ⟨?_, ?_, ?_⟩
    · rcases List.mem_cons.mp hmem with hm | hm
      · rw [hm]
        rcases max_choice a v with hc | hc <;> rw [hc]
        · exact List.mem_cons_self _ _
        · exact List.mem_cons_of_mem _ (List.mem_cons_self _ _)
      · exact List.mem_cons_of_mem _ (List.mem_cons_of_mem _ hm)
    · exact le_trans (le_max_left a v) hle
    · intro w hw
      rcases List.mem_cons.mp hw with hw | hw
      · rw [hw]
        exact le_trans (le_max_right a v) hle
      · exact hall w hw

theorem npAmax_spec {row : List ℚ} (h : row ≠ []) :
    ∃ m, npAmax row = .ok m ∧ m ∈ row ∧ ∀ v ∈ row, v ≤ m := by
  match row, h with
  | a :: rest, _ =>
    obtain ⟨hmem, hle, hall⟩ := foldl_max_spec rest a
    refine ⟨rest.foldl max a, rfl, hmem, ?_⟩
    intro v hv
    rcases List.mem_cons.mp hv with hv | hv
    · exact hv ▸ hle
    · exact hall v hv

theorem getD_append_left {γ : Type} {l1 l2 : List γ} {i : Nat} {d : γ}
    (h : i < l1.length) : (l1 ++ l2).getD i d = l1.getD i d := by
  rw [List.getD_eq_getElem?_getD, List.getD_eq_getElem?_getD,
    List.getElem?_append, if_pos h]

theorem getD_append_self {γ : Type} {l1 : List γ} {v : γ} {l2 : List γ} {d : γ} :
    (l1 ++ v :: l2).getD l1.length d = v := by
  rw [List.getD_eq_getElem?_getD, List.getElem?_append_right (le_refl _)]
  simp

/-- Correctness of the `np.argmax` scan: if `pre` is the already-scanned
prefix, `m` the maximum of `pre` and `best` the first position of `pre`
attaining it, then scanning the remaining entries yields a position of the
full row holding a value that is maximal, with every strictly earlier
position holding a strictly smaller value. -/
theorem argmaxGo_spec : ∀ (rest pre : List ℚ) (m : ℚ) (best : Nat),
    best < pre.length → pre.getD best 0 = m → (∀ v ∈ pre, v ≤ m) →
    (∀ j, j < best → pre.getD j 0 < m) →
    argmaxGo rest m best pre.length < (pre ++ rest).length ∧
    (∀ v ∈ pre ++ rest, v ≤ (pre ++ rest).getD (argmaxGo rest m best pre.length) 0) ∧
    (∀ j, j < argmaxGo rest m best pre.length →
      (pre ++ rest).getD j 0 < (pre ++ rest).getD (argmaxGo rest m best pre.length) 0) := by
  intro rest
  induction rest with
  | nil =>
    intro pre m best hb hbm hall hfirst
    rw [List.append_nil]
    unfold argmaxGo
    exact ⟨hb, fun v hv => hbm ▸ hall v hv, fun j hj => hbm ▸ hfirst j hj⟩
  | cons v rest ih =>
    intro pre m best hb hbm hall hfirst
    rw [List.append_cons]
    show (argmaxGo (v :: rest) m best pre.length < _) ∧ _
    unfold argmaxGo
    by_cases hmv : m < v
    · rw [if_pos hmv]
      have hlen1 : (pre ++ [v]).length = pre.length + 1 := by simp
      have h1 : pre.length < (pre ++ [v]).length := by omega
      have h2 : (pre ++ [v]).getD pre.length 0 = v := getD_append_self
      have h3 : ∀ w ∈ pre ++ [v], w ≤ v := by
        intro w hw
        rcases List.mem_append.mp hw with hw | hw
        · exact le_of_lt (lt_of_le_of_lt (hall w hw) hmv)
        · rw [List.mem_singleton.mp hw]
      have h4 : ∀ j, j < pre.length → (pre ++ [v]).getD j 0 < v := by
        intro j hj
        rw [getD_append_left hj]
        have : pre.getD j 0 ∈ pre := by
          rw [List.getD_eq_getElem?_getD, List.getElem?_eq_getElem hj]
          exact List.getElem_mem hj
        exact lt_of_le_of_lt (hall _ this) hmv
      have := ih (pre ++ [v]) v pre.length h1 h2 h3 h4
      rwa [hlen1] at this
    · rw [if_neg hmv]
      have hlen1 : (pre ++ [v]).length = pre.length + 1 := by simp
      have h1 : best < (pre ++ [v]).length := by omega
      have h2 : (pre ++ [v]).getD best 0 = m := by rw [getD_append_left hb]; exact hbm
      have h3 : ∀ w ∈ pre ++ [v], w ≤ m := by
        intro w hw
        rcases List.mem_append.mp hw with hw | hw
        · exact hall w hw
        · rw [List.mem_singleton.mp hw]; exact le_of_not_lt hmv
      have h4 : ∀ j, j < best → (pre ++ [v]).getD j 0 < m := by
        intro j hj
        rw [getD_append_left (by omega)]
        exact hfirst j hj
      have := ih (pre ++ [v]) m best h1 h2 h3 h4
      rwa [hlen1] at this

theorem npArgmax_spec {row : List ℚ} (h : row ≠ []) :
    ∃ b, npArgmax row = .ok b ∧ b < row.length ∧
      (∀ v ∈ row, v ≤ row.getD b 0) ∧
      (∀ j, j < b → row.getD j 0 < row.getD b 0) := by
  match row, h with
  | a :: rest, _ =>
    have := argmaxGo_spec rest [a] a 0 (by simp) (by simp) (by simp) (by omega)
    simp only [List.length_cons, List.singleton_append, List.length_singleton] at this ⊢
    exact ⟨argmaxGo rest a 0 1, rfl, this.1, this.2.1, this.2.2⟩

/-- Mapping a fallible function over a list (`mapM` over `Except`) succeeds when the function succeeds on every
element, and the output aligns index-wise with the input. -/
theorem mapM_except_ok {γ δ : Type} (f : γ → Except PyErr δ) (dg : γ) (dd : δ) :
    ∀ l : List γ, (∀ a ∈ l, ∃ b, f a = .ok b) →
      ∃ out, l.mapM f = .ok out ∧ out.length = l.length ∧
        ∀ i, i < l.length → f (l.getD i dg) = .ok (out.getD i dd) := by
  intro l
  induction l with
  | nil => exact fun _ => ⟨[], rfl, rfl, fun i hi => by simp at hi⟩
  | cons a l ih =>
    intro hall
    obtain ⟨b, hb⟩ := hall a (List.mem_cons_self a l)
    obtain ⟨out, hout, hlen, hpt⟩ := ih (fun a2 ha2 => hall a2 (List.mem_cons_of_mem a ha2))
    refine ⟨b :: out, ?_, by simp [hlen], ?_⟩
    · rw [List.mapM_cons, hb, hout]
      rfl
    · intro i hi
      cases i with
      | zero => simpa using hb
      | succ i =>
        rw [List.getD_cons_succ, List.getD_cons_succ]
        exact hpt i (by simpa using hi)

theorem getD_mem {γ : Type} {l : List γ} {i : Nat} {d : γ} (h : i < l.length) :
    l.getD i d ∈ l := by
  rw [List.getD_eq_getElem?_getD, List.getElem?_eq_getElem h]
  exact List.getElem_mem h

/-- C10: on a matrix whose rows are all non-empty, `get_label_conf` returns
index-aligned confidences and labels; per row, the label is a valid column
index whose entry equals the returned confidence, the confidence bounds
every entry of the row from above, and every column before the label holds a
strictly smaller value, so the label is the smallest index attaining the row
maximum. -/
theorem get_label_conf_spec (y_vec : List (List ℚ))
    (hrows : ∀ row ∈ y_vec, row ≠ []) :
    ∃ confs labels, get_label_conf y_vec = .ok (confs, labels) ∧
      confs.length = y_vec.length ∧ labels.length = y_vec.length ∧
      ∀ i : Nat, i < y_vec.length →
        labels.getD i 0 < (y_vec.getD i []).length ∧
        (y_vec.getD i []).getD (labels.getD i 0) 0 = confs.getD i 0 ∧
        (∀ v ∈ y_vec.getD i [], v ≤ confs.getD i 0) ∧
        (∀ j, j < labels.getD i 0 → (y_vec.getD i []).getD j 0 < confs.getD i 0) := by
  obtain ⟨confs, hconfs, hclen, hcpt⟩ :=
    mapM_except_ok npAmax [] 0 y_vec
      (fun row hrow => (npAmax_spec (hrows row hrow)).imp (fun m hm => hm.1))
  obtain ⟨labels, hlabels, hllen, hlpt⟩ :=
    mapM_except_ok npArgmax [] 0 y_vec
      (fun row hrow => (npArgmax_spec (hrows row hrow)).imp (fun b hb => hb.1))
  refine ⟨confs, labels, ?_, hclen, hllen, ?_⟩
  · unfold get_label_conf
    rw [hconfs, hlabels]
  · intro i hi
    have hrowmem : y_vec.getD i [] ∈ y_vec := getD_mem (by omega)
    have hrowne := hrows _ hrowmem
    obtain ⟨m, hm, hmmem, hmub⟩ := npAmax_spec hrowne
    obtain ⟨b, hbeq, hblt, hbub, hbfirst⟩ := npArgmax_spec hrowne
    have hmc : m = confs.getD i 0 := by
      have := hcpt i hi
      rw [hm] at this
      injection this
    have hbl : b = labels.getD i 0 := by
      have := hlpt i hi
      rw [hbeq] at this
      injection this
    have hvalb : (y_vec.getD i []).getD b 0 = m := by
      refine le_antisymm (hmub _ (getD_mem hblt)) (hbub m hmmem)
    refine ⟨hbl ▸ hblt, ?_, ?_, ?_⟩
    · rw [← hbl, ← hmc]
      exact hvalb
    · intro v hv
      rw [← hmc]
      exact hmub v hv
    · intro j hj
      rw [← hmc, ← hvalb]
      exact hbfirst j (hbl ▸ hj)

/-- Witness for C10 at `y_vec = [[1, 3, 3, 2], [5, 0, 5, 1]]` (row maxima
`3` and `5`, first attained at columns `1` and `0`). -/
theorem get_label_conf_spec_witness :
    ∃ confs labels,
      get_label_conf [[(1 : ℚ), 3, 3, 2], [5, 0, 5, 1]] = .ok (confs, labels) ∧
      confs.length = ([[(1 : ℚ), 3, 3, 2], [5, 0, 5, 1]]).length ∧
      labels.length = ([[(1 : ℚ), 3, 3, 2], [5, 0, 5, 1]]).length ∧
      ∀ i : Nat, i < ([[(1 : ℚ), 3, 3, 2], [5, 0, 5, 1]]).length →
        labels.getD i 0 < (([[(1 : ℚ), 3, 3, 2], [5, 0, 5, 1]]).getD i []).length ∧
        (([[(1 : ℚ), 3, 3, 2], [5, 0, 5, 1]]).getD i []).getD (labels.getD i 0) 0
          = confs.getD i 0 ∧
        (∀ v ∈ ([[(1 : ℚ), 3, 3, 2], [5, 0, 5, 1]]).getD i [], v ≤ confs.getD i 0) ∧
        (∀ j, j < labels.getD i 0 →
          (([[(1 : ℚ), 3, 3, 2], [5, 0, 5, 1]]).getD i []).getD j 0 < confs.getD i 0) :=
  get_label_conf_spec [[(1 : ℚ), 3, 3, 2], [5, 0, 5, 1]] (by
    intro row hrow
    rcases List.mem_cons.mp hrow with h | h
    · rw [h]; simp
    · rcases List.mem_cons.mp h with h | h
      · rw [h]; simp
      · exact absurd h (List.not_mem_nil row))

/-! ### C9: labels from confidences -/

theorem getD_map {γ δ : Type} (f : γ → δ) {l : List γ} {i : Nat} (dg : γ) (dd : δ)
    (h : i < l.length) : (l.map f).getD i dd = f (l.getD i dg) := by
  rw [List.getD_eq_getElem?_getD, List.getElem?_map, List.getElem?_eq_getElem h,
    List.getD_eq_getElem?_getD, List.getElem?_eq_getElem h]
  rfl

theorem getD_zipWith {γ δ ε : Type} (f : γ → δ → ε) {a : List γ} {b : List δ}
    {p : Nat} (dg : γ) (dd : δ) (de : ε) (ha : p < a.length) (hb : p < b.length) :
    (List.zipWith f a b).getD p de = f (a.getD p dg) (b.getD p dd) := by
  rw [List.getD_eq_getElem?_getD, List.getElem?_zipWith,
    List.getElem?_eq_getElem ha, List.getElem?_eq_getElem hb,
    List.getD_eq_getElem?_getD (l := a), List.getElem?_eq_getElem ha,
    List.getD_eq_getElem?_getD (l := b), List.getElem?_eq_getElem hb]
  rfl

theorem npAmax_eq_foldl {row : List ℚ} (h : row ≠ []) :
    npAmax row = .ok (row.foldl max (row.headD 0)) := by
  match row, h with
  | a :: rest, _ =>
    unfold npAmax
    rw [List.headD_cons, List.foldl_cons, max_self]

theorem sum_ite_const (row : List ℚ) (m c : ℚ) :
    (row.map (fun v => if v = m then c else 0)).sum
      = (row.countP (fun v => decide (v = m)) : ℚ) * c := by
  induction row with
  | nil => simp
  | cons a row ih =>
    simp only [List.map_cons, List.sum_cons, List.countP_cons, ih]
    by_cases h : a = m
    · subst h
      simp only [if_pos rfl, decide_eq_true_eq, eq_self_iff_true, if_true]
      push_cast
      ring
    · simp only [if_neg h, decide_eq_true_eq, h, if_false]
      push_cast
      ring

/-- Counterexample for C9: on the single tied row `[1, 1]`, the numpy
labels-from-confidences function returns `[1, 1]` — each tied maximum gets
mass `1`, not `1/2`, and the row sums to `2`, not `1`. -/
theorem get_labels_np_array_c9_counterexample :
    get_labels_np_array [[(1 : ℚ), 1]] = .ok [[1, 1]] ∧ ([(1 : ℚ), 1]).sum ≠ 1 := by
  constructor
  · rfl
  · norm_num

/-- C9 (amended): on a matrix with non-empty rows, the tensorflow version
(`get_labels_tf_tensor`) gives each of the `k` tied maxima of a row mass
`1/k` and all other entries `0`, so each of its rows sums to `1`; the numpy
version (`get_labels_np_array`) instead marks each tied maximum with `1`
with no normalisation, so its rows are raw indicators summing to `k`
(one-hot only when the row maximum is unique). -/
theorem get_labels_from_confidences_amended (preds : List (List ℚ))
    (hrows : ∀ row ∈ preds, row ≠ []) :
    ∃ out_np, get_labels_np_array preds = .ok out_np ∧
      out_np.length = preds.length ∧
      (get_labels_tf_tensor preds).length = preds.length ∧
      ∀ i : Nat, i < preds.length →
        ∃ m : ℚ, m ∈ preds.getD i [] ∧ (∀ v ∈ preds.getD i [], v ≤ m) ∧
          out_np.getD i []
            = (preds.getD i []).map (fun v => if v = m then (1 : ℚ) else 0) ∧
          (out_np.getD i []).sum
            = ((preds.getD i []).countP (fun v => decide (v = m)) : ℚ) ∧
          (get_labels_tf_tensor preds).getD i []
            = (preds.getD i []).map (fun v => if v = m
                then 1 / ((preds.getD i []).countP (fun v => decide (v = m)) : ℚ)
                else 0) ∧
          ((get_labels_tf_tensor preds).getD i []).sum = 1 := by
  obtain ⟨maxes, hmaxes, hmlen, hmpt⟩ :=
    mapM_except_ok npAmax [] 0 preds
      (fun row hrow => (npAmax_spec (hrows row hrow)).imp (fun m hm => hm.1))
  refine ⟨List.zipWith (fun row mx => row.map (fun v => if v = mx then (1 : ℚ) else 0))
      preds maxes, ?_, ?_, ?_, ?_⟩
  · unfold get_labels_np_array
    rw [hmaxes]
  · rw [List.length_zipWith, hmlen]
    simp
  · unfold get_labels_tf_tensor
    rw [List.length_map]
  · intro i hi
    have hrowne : preds.getD i [] ≠ [] := hrows _ (getD_mem hi)
    obtain ⟨m, hm, hmmem, hmub⟩ := npAmax_spec hrowne
    have hmx : maxes.getD i 0 = m := by
      have h1 := hmpt i hi
      rw [hm] at h1
      injection h1 with h1
      exact h1.symm
    have hk : 0 < (preds.getD i []).countP (fun v => decide (v = m)) :=
      List.countP_pos_iff.mpr ⟨m, hmmem, by simp⟩
    have hkq : ((preds.getD i []).countP (fun v => decide (v = m)) : ℚ) ≠ 0 := by
      exact_mod_cast Nat.pos_iff_ne_zero.mp hk
    have hfold : (preds.getD i []).foldl max ((preds.getD i []).headD 0) = m := by
      have h1 := npAmax_eq_foldl hrowne
      rw [hm] at h1
      injection h1 with h1
      exact h1.symm
    refine ⟨m, hmmem, hmub, ?_, ?_, ?_, ?_⟩
    · rw [getD_zipWith (fun row mx => row.map (fun v => if v = mx then (1 : ℚ) else 0))
        [] 0 [] hi (by omega), hmx]
    · rw [getD_zipWith (fun row mx => row.map (fun v => if v = mx then (1 : ℚ) else 0))
        [] 0 [] hi (by omega), hmx, sum_ite_const, mul_one]
    · unfold get_labels_tf_tensor
      rw [getD_map tfRow [] [] hi]
      unfold tfRow tfNormalize
      rw [hfold, sum_ite_const, mul_one, List.map_map]
      refine List.map_congr_left (fun v _ => ?_)
      by_cases hv : v = m
      · simp [hv]
      · simp [hv]
    · unfold get_labels_tf_tensor
      rw [getD_map tfRow [] [] hi]
      unfold tfRow tfNormalize
      rw [hfold, sum_ite_const, mul_one, List.map_map]
      have hcongr : ∀ v ∈ preds.getD i [],
          ((fun v => v / ((preds.getD i []).countP (fun v => decide (v = m)) : ℚ)) ∘
            (fun v => if v = m then (1 : ℚ) else 0)) v
            = (fun v => if v = m
                then 1 / ((preds.getD i []).countP (fun v => decide (v = m)) : ℚ)
                else 0) v := by
        intro v _
        by_cases hv : v = m
        · simp [hv]
        · simp [hv]
      rw [List.map_congr_left hcongr, sum_ite_const, one_div, mul_inv_cancel₀ hkq]

/-- Witness for C9 (amended) at `preds = [[1, 1], [0, 2]]`. -/
theorem get_labels_from_confidences_amended_witness :
    ∃ out_np, get_labels_np_array [[(1 : ℚ), 1], [0, 2]] = .ok out_np ∧
      out_np.length = ([[(1 : ℚ), 1], [0, 2]]).length ∧
      (get_labels_tf_tensor [[(1 : ℚ), 1], [0, 2]]).length
        = ([[(1 : ℚ), 1], [0, 2]]).length ∧
      ∀ i : Nat, i < ([[(1 : ℚ), 1], [0, 2]]).length →
        ∃ m : ℚ, m ∈ ([[(1 : ℚ), 1], [0, 2]]).getD i [] ∧
          (∀ v ∈ ([[(1 : ℚ), 1], [0, 2]]).getD i [], v ≤ m) ∧
          out_np.getD i []
            = (([[(1 : ℚ), 1], [0, 2]]).getD i []).map
                (fun v => if v = m then (1 : ℚ) else 0) ∧
          (out_np.getD i []).sum
            = ((([[(1 : ℚ), 1], [0, 2]]).getD i []).countP
                (fun v => decide (v = m)) : ℚ) ∧
          (get_labels_tf_tensor [[(1 : ℚ), 1], [0, 2]]).getD i []
            = (([[(1 : ℚ), 1], [0, 2]]).getD i []).map
                (fun v => if v = m
                  then 1 / ((([[(1 : ℚ), 1], [0, 2]]).getD i []).countP
                    (fun v => decide (v = m)) : ℚ)
                  else 0) ∧
          ((get_labels_tf_tensor [[(1 : ℚ), 1], [0, 2]]).getD i []).sum = 1 :=
  get_labels_from_confidences_amended [[(1 : ℚ), 1], [0, 2]] (by
    intro row hrow
    rcases List.mem_cons.mp hrow with h | h
    · rw [h]; simp
    · rcases List.mem_cons.mp h with h | h
      · rw [h]; simp
      · exact absurd h (List.not_mem_nil row))

end AdvUtils
